import Mathlib

/-!
Verification development for gba-conway.

Shallow embedding of `source/main.c` and `source/utils/xorshf96.iwram.c`.

* 32-bit machine words are natural numbers, truncated with `% 2 ^ 32` wherever the C
  arithmetic can leave the 32-bit range.
* VRAM is a function from word offsets (counted in 32-bit words from the start of character
  block 0, so `tile_mem[b][t].data[k]` is word `4096 * b + 8 * t + k`) to words.
* Stateful code is written in state-passing style over `Machine`.
-/

namespace GbaConway

/-! ## Definitions -/

/-! ### `xorshf96` (source/utils/xorshf96.iwram.c) -/

/-- The three `static u32` words of `xorshf96`. -/
structure RngState where
  x : Nat
  y : Nat
  z : Nat
deriving DecidableEq, Repr

/-- Initial values of the statics: `x=123456789, y=362436069, z=521288629`. -/
def seed : RngState := ⟨123456789, 362436069, 521288629⟩

/-- One call of `xorshf96`: the returned word and the new values of the statics. -/
def xorshf96 (s : RngState) : Nat × RngState :=
  let x := s.x ^^^ ((s.x <<< 16) % 2 ^ 32)
  let x := x ^^^ (x >>> 5)
  let x := x ^^^ ((x <<< 1) % 2 ^ 32)
  let t := x
  let x := s.y
  let y := s.z
  let z := t ^^^ x ^^^ y
  (z, ⟨x, y, z⟩)

/-- The state transition of one `xorshf96` call. -/
def rngStep (s : RngState) : RngState := (xorshf96 s).2

/-- The statics after `n` calls since program start. -/
def rngAfter (n : Nat) : RngState := rngStep^[n] seed

/-- All three statics are 32-bit words. -/
def RngState.Valid (s : RngState) : Prop := s.x < 2 ^ 32 ∧ s.y < 2 ^ 32 ∧ s.z < 2 ^ 32

/-- Specification-side mixing function `m`: `x ^= x << 16`, `x ^= x >> 5`, `x ^= x << 1`,
every step taken modulo `2 ^ 32`. -/
def specMix (x : Nat) : Nat :=
  let a := (x ^^^ (x <<< 16)) % 2 ^ 32
  let b := (a ^^^ (a >>> 5)) % 2 ^ 32
  (b ^^^ (b <<< 1)) % 2 ^ 32

/-- Specification-side reference sequence with the index shifted by three:
`specSeq k` is `r (k - 3)`. -/
def specSeq : Nat → Nat
  | 0 => 123456789
  | 1 => 362436069
  | 2 => 521288629
  | k + 3 => specMix (specSeq k) ^^^ specSeq (k + 1) ^^^ specSeq (k + 2)

/-- Specification-side reference sequence `r`, indexed from `-3`. -/
def specR (n : Int) : Nat := specSeq (n + 3).toNat

/-! ### Cell words -/

/-- The word the random reset stores: `(lastRandom >> 1) & lastRandom & 0x11111111`. -/
def randomMask (r : Nat) : Nat := (r >>> 1) &&& r &&& 0x11111111

/-- The 4-bit field `n` of a word (pixel `n` of a 4bpp tile row). -/
def cellField (w n : Nat) : Nat := (w >>> (4 * n)) % 16

/-! ### Cycle display (`displayCycleCount`) -/

/-- The constant `VBLANK_NUM_CYCLES`. -/
def VBLANK_NUM_CYCLES : Nat := 280896

/-- The tonc colour constructor `RGB15(r, g, b) = r | g << 5 | b << 10`. -/
def RGB15 (r g b : Nat) : Nat := r ||| (g <<< 5) ||| (b <<< 10)

/-- Subtraction of `u32` values. -/
def sub32 (a b : Nat) : Nat := (a + (2 ^ 32 - b % 2 ^ 32)) % 2 ^ 32

/-- The array `digits[3]` computed by `displayCycleCount` from `cycles`. -/
def percentDigits (cycles : Nat) : Nat × Nat × Nat :=
  let value := ((cycles <<< 8) % 2 ^ 32) / VBLANK_NUM_CYCLES
  let d0 := value >>> 8
  let value := (sub32 value ((d0 <<< 8) % 2 ^ 32) * 10) % 2 ^ 32
  let d1 := value >>> 8
  let value := (sub32 value ((d1 <<< 8) % 2 ^ 32) * 10) % 2 ^ 32
  let d2 := value >>> 8
  (d0, d1, d2)

/-- The index `digitStart` of the first percentage digit shown. -/
def digitStart (cycles : Nat) : Nat :=
  let d := percentDigits cycles
  if d.1 ≠ 0 then 0 else if d.2.1 ≠ 0 then 1 else 2

/-- The value `displayCycleCount` stores in `pal_obj_mem[1]`. -/
def indicatorColor (cycles : Nat) : Nat :=
  if cycles < 3 * VBLANK_NUM_CYCLES / 10 then RGB15 0 21 0
  else if cycles < 5 * VBLANK_NUM_CYCLES / 10 then RGB15 21 21 0
  else RGB15 21 0 0

/-- Green, `RGB15(0, 21, 0)`. -/
def colorGreen : Nat := RGB15 0 21 0

/-- Yellow, `RGB15(21, 21, 0)`. -/
def colorYellow : Nat := RGB15 21 21 0

/-- Red, `RGB15(21, 0, 0)`. -/
def colorRed : Nat := RGB15 21 0 0

/-! ### Memory and loops -/

/-- Word offset of `tile_mem[b][t].data[k]` from the start of character block 0: a character
block is 16 KiB (512 tiles of 8 words), and indexing past tile 511 runs on into the next
block, as the C array indexing does. -/
def tileWord (b t k : Nat) : Nat := 4096 * b + 8 * t + k

/-- A single store `mem[a] = v`. -/
def writeMem (m : Nat → Nat) (a v : Nat) : Nat → Nat := fun i => if i = a then v else m i

/-- A sequence of stores `(address, value)`, performed in list order. -/
def applyStores (m : Nat → Nat) (ws : List (Nat × Nat)) : Nat → Nat :=
  ws.foldl (fun m w => writeMem m w.1 w.2) m

/-- The loop `for (u32 i = 0; i < n; i++) body(i)`, as a state transformer. -/
def forLoop {σ : Type} : Nat → (Nat → σ → σ) → σ → σ
  | 0, _, s => s
  | n + 1, body, s => body n (forLoop n body s)

/-- The stores of tonc `memset32(dst, val, count)` (word fill). -/
def memset32 (dst val count : Nat) : List (Nat × Nat) :=
  (List.range count).map (fun n => (dst + n, val))

/-- The stores of tonc `memcpy32(dst, src, count)` (word copy); `src n` is the `n`-th source
word. -/
def memcpy32 (dst : Nat) (src : Nat → Nat) (count : Nat) : List (Nat × Nat) :=
  (List.range count).map (fun n => (dst + n, src n))

/-! ### The scene (source/main.c) -/

/-- The part of the machine state the scene code uses. `vram` is indexed in words from the
start of character block 0; `se31` is screen block 31 (`se_mem[31][n]`, 16-bit entries), which
lies at word 15872 and above of the same memory, beyond every tile word the program writes
below character block 4, and is kept as a separate map. OAM is not part of the model. -/
structure Machine where
  vram : Nat → Nat
  se31 : Nat → Nat
  palBg0 : Nat → Nat
  palObj1 : Nat
  dispcnt : Nat
  bg0cnt : Nat
  curScreen : Int
  rng : RngState

/-- The machine at program start: zeroed memory and registers, `int curScreen = 1`, and the
generator statics at their initial values. -/
def machine0 : Machine :=
  { vram := fun _ => 0
    se31 := fun _ => 0
    palBg0 := fun _ => 0
    palObj1 := 0
    dispcnt := 0
    bg0cnt := 0
    curScreen := 1
    rng := seed }

/-- The tile index `22*i+j+1` that `initScene` stores for screen column `i`, row `j`. -/
def tileIndex (i j : Nat) : Nat := 22 * i + j + 1

/-- The screen-block loops of `initScene`:
`for j < 20, for i < 30: se_mem[31][j*32+i] = 22*i+j+1`. -/
def initScreenBlock (se : Nat → Nat) : Nat → Nat :=
  forLoop 20 (fun j se =>
    forLoop 30 (fun i se => writeMem se (j * 32 + i) ((22 * i + j + 1) % 2 ^ 16)) se) se

/-- The tile-memory stores of `initScene`: the two `memset32` calls of
`660*sizeof(TILE4)/sizeof(u32)` words each and the copy of the font tiles to
`tile_mem_obj[0][1]` (tile 1 of character block 4); `monogramTiles` are the words of the
font asset. -/
def initSceneStores (monogramTiles : List Nat) : List (Nat × Nat) :=
  memset32 (tileWord 0 0 0) 0 (660 * 32 / 4) ++ memset32 (tileWord 2 0 0) 0 (660 * 32 / 4) ++
    memcpy32 (tileWord 4 1 0) (fun n => monogramTiles.getD n 0) monogramTiles.length

/-- The function `initScene`. -/
def initScene (monogramTiles : List Nat) (m : Machine) : Machine :=
  { m with
    palBg0 := writeMem (writeMem m.palBg0 0 (RGB15 0 0 12)) 1 (RGB15 31 31 31)
    vram := applyStores m.vram (initSceneStores monogramTiles)
    se31 := initScreenBlock m.se31 }

/-- Loop state of the random fill in `resetScene`: the generator statics, the local
`lastRandom`, and the stores performed so far. -/
structure FillState where
  rng : RngState
  lastRandom : Nat
  stores : List (Nat × Nat)

/-- Body of the innermost loop of the random fill:
`if (k % 2 == 0) lastRandom = xorshf96();`
`tile_mem[0][22*i+j+1].data[k] = (lastRandom >> 1) & lastRandom & 0x11111111;`. -/
def fillBody (i j k : Nat) (st : FillState) : FillState :=
  let r : Nat × RngState := if k % 2 = 0 then xorshf96 st.rng else (st.lastRandom, st.rng)
  { rng := r.2
    lastRandom := r.1
    stores := st.stores ++ [(tileWord 0 (22 * i + j + 1) k, randomMask r.1)] }

/-- The innermost loop of the random fill, `for (u32 k = 0; k < 8; k++)`, for tile
`22*i+j+1`. -/
def fillTileLoop (i j : Nat) (st : FillState) : FillState :=
  forLoop 8 (fun k st => fillBody i j k st) st

/-- The middle loop of the random fill, `for (u32 j = 0; j < 20; j++)`, for tile column `i`. -/
def fillColumnLoop (i : Nat) (st : FillState) : FillState :=
  forLoop 20 (fun j st => fillTileLoop i j st) st

/-- The random branch of `resetScene`: `u32 lastRandom = 0;` and the outer loop
`for (u32 i = 0; i < 30; i++)` around the two inner loops. -/
def randomFill (rng : RngState) : FillState :=
  forLoop 30 (fun i st => fillColumnLoop i st) ⟨rng, 0, []⟩

/-- The fixed-pattern branch of `resetScene`:
`for i < 30: memcpy32(&tile_mem[0][22*i+1], startingTiles+(640*i), 640/sizeof(u32))`.
`startingTiles i n` is the `n`-th 32-bit word at the source address `startingTiles+(640*i)`. -/
def patternFill (startingTiles : Nat → Nat → Nat) : List (Nat × Nat) :=
  forLoop 30 (fun i ws => ws ++ memcpy32 (tileWord 0 (22 * i + 1) 0) (startingTiles i) (640 / 4)) []

/-- The tile-memory stores of `resetScene(random)`, in program order, with the generator
statics afterwards. -/
def resetSceneStores (startingTiles : Nat → Nat → Nat) (random : Bool) (rng : RngState) :
    List (Nat × Nat) × RngState :=
  if random then ((randomFill rng).stores, (randomFill rng).rng)
  else (patternFill startingTiles, rng)

/-- The function `resetScene`. The final register values are
`DCNT_MODE0 | DCNT_BG0 | DCNT_OBJ | DCNT_OBJ_1D = 0x1140` and
`BG_4BPP | BG_SBB(31) | BG_REG_32x32 = 31 << 8`. -/
def resetScene (startingTiles : Nat → Nat → Nat) (random : Bool) (m : Machine) : Machine :=
  { m with
    vram := applyStores m.vram (resetSceneStores startingTiles random m.rng).1
    rng := (resetSceneStores startingTiles random m.rng).2
    dispcnt := 0x1140
    bg0cnt := 31 <<< 8
    curScreen := 1 }

/-- C logical negation `!c` on an `int`. -/
def lnot (c : Int) : Int := if c = 0 then 1 else 0

/-- The character blocks `(2*curScreen, 2*(1-curScreen))` whose tile 1 the next `updateScene`
call passes to the kernel as `(src, dest)`; `curScreen` is the value after the flip
`curScreen = !curScreen`. -/
def kernelArgs (m : Machine) : Nat × Nat :=
  ((2 * lnot m.curScreen).toNat, (2 * (1 - lnot m.curScreen)).toNat)

/-- Stores to a column-major region: for each of the first `n` tile columns `i`, the 160
interior row words `base + 176 * i + y` receive `val i y`, in address order. -/
def gridStores (base : Nat) (val : Nat → Nat → Nat) (n : Nat) : List (Nat × Nat) :=
  forLoop n (fun i ws =>
    ws ++ (List.range 160).map (fun y => (base + 176 * i + y, val i y))) []

/-- The value the `(n+1)`-th call of `xorshf96` returns when the statics start at `s`. -/
def rngOut (s : RngState) (n : Nat) : Nat := (xorshf96 (rngStep^[n] s)).1

/-! ### The generation-advance kernel -/

/-- Modelled from the spec: the canonical cells of a row word (§3, "only bit 0 semantically
meaningful"): bit 0 of each of the eight 4-bit fields, all other bits cleared. The kernel
`conwaySimulationAdvance` is an assembly routine that `main.c` only declares. -/
def cellMask (w : Nat) : Nat := w &&& 0x11111111

/-- Modelled from the spec: the cells of a row moved one field up, so that field `n` holds the
left neighbour of cell `n`; field 0 is fetched from field 7 of the row word `prev` of the tile
column to the left (§4.3, "fetch neighbor bits from the adjacent packed unit"). -/
def fromLeft (cur prev : Nat) : Nat := ((cur <<< 4) % 2 ^ 32) ||| (prev >>> 28)

/-- Modelled from the spec: the cells of a row moved one field down, so that field `n` holds
the right neighbour of cell `n`; field 7 is fetched from field 0 of the row word `next` of the
tile column to the right. -/
def fromRight (cur next : Nat) : Nat := (cur >>> 4) ||| ((next <<< 28) % 2 ^ 32)

/-- Modelled from the spec: the canonical row word of the tile column to the left of column `i`
at the same row as word `a`, 176 words earlier (Grid Layout, §4.2). The buffer laid out by
`initScene` has border tiles above and below only, so column 0 has no column to its left and
no cell is fetched there. -/
def leftWord (mem : Nat → Nat) (i a : Nat) : Nat :=
  if 0 < i then cellMask (mem (a - 176)) else 0

/-- Modelled from the spec: the canonical row word of the tile column to the right of column
`i` at the same row as word `a`, 176 words later; the last column, 29, has no column to its
right and no cell is fetched there. -/
def rightWord (mem : Nat → Nat) (i a : Nat) : Nat :=
  if i + 1 < 30 then cellMask (mem (a + 176)) else 0

/-- Modelled from the spec: for the row at word `a` of tile column `i`, the word whose field
`n` is the number of live cells among the cell `n` of that row and its left and right
neighbours, by word-wide addition (§4.3, "shifted/masked word-wide additions"). -/
def rowAround (mem : Nat → Nat) (i a : Nat) : Nat :=
  fromLeft (cellMask (mem a)) (leftWord mem i a) + cellMask (mem a) +
    fromRight (cellMask (mem a)) (rightWord mem i a)

/-- Modelled from the spec: as `rowAround`, without the cell itself: the number of live cells
among the left and right neighbour of each cell of the row. -/
def rowSides (mem : Nat → Nat) (i a : Nat) : Nat :=
  fromLeft (cellMask (mem a)) (leftWord mem i a) +
    fromRight (cellMask (mem a)) (rightWord mem i a)

/-- Modelled from the spec: the neighbour sums of the eight cells of interior row `y` of tile
column `i` in the buffer whose first interior tile is at word `p`, all eight at once: the row
above, the two sides of the row itself and the row below, added as 32-bit words (§4.3, SWAR
counting). -/
def neighbourSums (mem : Nat → Nat) (p i y : Nat) : Nat :=
  (rowAround mem i (p + 176 * i + y - 1) + rowSides mem i (p + 176 * i + y) +
    rowAround mem i (p + 176 * i + y + 1)) % 2 ^ 32

/-- Modelled from the spec: the truth table of §4.3 on all eight fields at once. With
`t = sums | cur`, a cell is alive next exactly when its field of `t` is 3 (three live
neighbours, or two and the cell alive); the result is canonical. -/
def lifeSelect (sums cur : Nat) : Nat :=
  let t := sums ||| cur
  t &&& (t >>> 1) &&& ((t >>> 2) ^^^ 0xFFFFFFFF) &&& ((t >>> 3) ^^^ 0xFFFFFFFF) &&& 0x11111111

/-- Modelled from the spec: the row word of tile column `i`, interior row `y`, in the next
generation, computed from the buffer at `p` in a constant number of word operations. -/
def nextWord (mem : Nat → Nat) (p i y : Nat) : Nat :=
  lifeSelect (neighbourSums mem p i y) (cellMask (mem (p + 176 * i + y)))

/-- Modelled from the spec: the state of the cell in pixel column `x` (0..239) and pixel row
`y` of the buffer whose first interior tile is at word `p`, under the Grid Layout (§3, §4.2):
tile column `x / 8` occupies 176 consecutive words, interior rows are `0 ≤ y < 160`, the
border tiles hold rows `-8 ≤ y < 0` and `160 ≤ y < 168`; the cell is field `x % 8` of its row
word and only bit 0 of the field is meaningful. The kernel `conwaySimulationAdvance` is only
declared in `main.c`; the layout is the one `initScene` and `resetScene` use. A coordinate
outside the buffer holds no cell and is reported as not alive. -/
def cellAlive (mem : Nat → Nat) (p : Nat) (x y : Int) : Bool :=
  if 0 ≤ x ∧ x < 240 ∧ -8 ≤ y ∧ y < 168 then
    decide (cellField (mem ((p : Int) + 176 * (x / 8) + y).toNat) (x % 8).toNat % 2 = 1)
  else false

/-- Modelled from the spec: the kernel `conwaySimulationAdvance(src, dest)` of §4.3 as a
memory transformer; the routine itself is assembly and `main.c` only declares it. `src` and
`dest` are the word offsets of the first interior tile of each buffer, as passed by
`updateScene`. The row words of `dest` are written one after the other, each computed from the
memory as it is at that moment, so the contract that the two buffers are different storage
matters; border words of `dest` are left as they are. The bit-parallel network is one network
of the kind §4.3 requires, not a transcription of the assembly. -/
def conwaySimulationAdvance (mem : Nat → Nat) (src dest : Nat) : Nat → Nat :=
  forLoop 30 (fun i mem =>
    forLoop 160 (fun y mem =>
      writeMem mem (dest + 176 * i + y) (nextWord mem src i y)) mem) mem

/-- A 32-bit word all of whose eight fields are at most `c`. -/
def FieldsLe (w c : Nat) : Prop := w < 2 ^ 32 ∧ ∀ k, k < 8 → cellField w k ≤ c

/-- A test buffer for the kernel: a horizontal blinker, cells (2,4), (3,4), (4,4) of the
buffer whose first interior tile is at word 8 (character block 0), everything else dead. -/
def blinkerMem : Nat → Nat := fun a => if a = 12 then 0x11100 else 0

/-- The function `updateScene`; `tm1d` and `tm0d` are the timer registers read after the kernel
returns. `BG_CBB(2)` is `2 << 2`. -/
def updateScene (tm1d tm0d : Nat) (m : Machine) : Machine :=
  let curScreen := lnot m.curScreen
  let bg0cnt := if curScreen = 1 then m.bg0cnt ||| (2 <<< 2) else m.bg0cnt &&& (0xFFFF ^^^ (2 <<< 2))
  let vram := conwaySimulationAdvance m.vram
    (tileWord (2 * curScreen).toNat 1 0) (tileWord (2 * (1 - curScreen)).toNat 1 0)
  { m with
    curScreen := curScreen
    bg0cnt := bg0cnt
    vram := vram
    palObj1 := indicatorColor (((tm1d <<< 16) ||| tm0d) % 2 ^ 32) }

/-- A run of `updateScene` calls, one per pair of timer readings. -/
def updateSceneRun (ts : List (Nat × Nat)) (m : Machine) : Machine :=
  ts.foldl (fun m t => updateScene t.1 t.2 m) m

/-! ### GF(2) polynomial arithmetic for the period of the generator -/

/-- Word-wise exclusive or of two generator states. -/
def sx (a b : RngState) : RngState := ⟨a.x ^^^ b.x, a.y ^^^ b.y, a.z ^^^ b.z⟩

/-- The all-zero state. -/
def zeroState : RngState := ⟨0, 0, 0⟩

/-- The GF(2) polynomial with coefficient bits `a`, applied to the transition: the exclusive
or of `rngStep^[i] s` over the set bits `i` of `a`. -/
def act (a : Nat) (s : RngState) : RngState :=
  if a = 0 then zeroState
  else sx (if a % 2 = 1 then s else zeroState) (act (a / 2) (rngStep s))
termination_by a
decreasing_by omega

/-- Evaluation-order helper: continue with the value of `x`. -/
def forceNat {α : Type} (x : Nat) (k : Nat → α) : α :=
  match x with
  | 0 => k 0
  | n + 1 => k (n + 1)

/-- Coefficient bits of the characteristic polynomial of the transition over GF(2)
(degree 96). -/
def charPoly : Nat := 79250350551950633477583897425

/-- Carry-less (GF(2)[X]) product of `a` and `b`, with fuel. -/
def clmulF : Nat → Nat → Nat → Nat
  | 0, _, _ => 0
  | _ + 1, 0, _ => 0
  | f + 1, a + 1, b => ((a + 1) % 2) * b ^^^ 2 * clmulF f ((a + 1) / 2) b

/-- Cancel the coefficients `96 + n - 1, ..., 96` of `c` with multiples of `charPoly`. -/
def redF : Nat → Nat → Nat
  | 0, c => c
  | n + 1, c => redF n (c ^^^ ((c >>> (96 + n)) % 2) * (charPoly <<< n))

/-- Product modulo `charPoly`. -/
def mulmod (a b : Nat) : Nat := redF 96 (clmulF a a b)

/-- Multiplication by `X` modulo `charPoly`. -/
def mulX (a : Nat) : Nat := redF 1 (2 * a)

/-- The power `X ^ e` modulo `charPoly`, by squaring, with fuel. -/
def powF : Nat → Nat → Nat
  | 0, _ => 1
  | _ + 1, 0 => 1
  | f + 1, e + 1 =>
    forceNat (powF f ((e + 1) / 2)) fun r =>
      forceNat (mulmod r r) fun r2 => if (e + 1) % 2 = 1 then mulX r2 else r2

/-- The power `X ^ e` modulo `charPoly`. -/
def powmod (e : Nat) : Nat := powF e e

/-- Horner-style evaluation of `act p cur`, accumulated onto `acc`, with fuel. -/
def annF : Nat → Nat → RngState → RngState → RngState
  | 0, _, _, acc => acc
  | f + 1, p, cur, acc =>
    annF f (p / 2) (rngStep cur) (if p % 2 = 1 then sx acc cur else acc)

/-- The characteristic polynomial annihilates each of the 96 unit states. -/
def basisAnnihilated : Bool :=
  (List.range 32).all (fun i =>
    annF 97 charPoly ⟨2 ^ i, 0, 0⟩ zeroState == zeroState &&
    annF 97 charPoly ⟨0, 2 ^ i, 0⟩ zeroState == zeroState &&
    annF 97 charPoly ⟨0, 0, 2 ^ i⟩ zeroState == zeroState)

/-- The characteristic polynomial annihilates every valid state. -/
def Annihilates : Prop := ∀ s : RngState, s.Valid → act charPoly s = zeroState

/-- The state as one 96-bit number `x + 2^32 * y + 2^64 * z`. -/
def encode (s : RngState) : Nat := s.x + 2 ^ 32 * s.y + 2 ^ 64 * s.z

/-! ## Theorems -/

/-! ### Stores and loops -/

theorem forLoop_congr {σ : Type} (n : Nat) (f g : Nat → σ → σ) (s : σ)
    (h : ∀ i, i < n → ∀ t, f i t = g i t) : forLoop n f s = forLoop n g s := by
  induction n with
  | zero => rfl
  | succ n ih =>
    simp only [forLoop]
    rw [ih (fun i hi => h i (Nat.lt_succ_of_lt hi)), h n (Nat.lt_succ_self n)]

theorem applyStores_append (m : Nat → Nat) (ws ws' : List (Nat × Nat)) :
    applyStores m (ws ++ ws') = applyStores (applyStores m ws) ws' := by
  unfold applyStores
  rw [List.foldl_append]

theorem applyStores_range_map (m : Nat → Nat) (b n : Nat) (g : Nat → Nat) (a : Nat) :
    applyStores m ((List.range n).map (fun y => (b + y, g y))) a =
      if b ≤ a ∧ a < b + n then g (a - b) else m a := by
  induction n with
  | zero =>
    have : ¬ (b ≤ a ∧ a < b + 0) := by omega
    rw [if_neg this]
    rfl
  | succ n ih =>
    rw [List.range_succ, List.map_append, applyStores_append]
    simp only [List.map_cons, List.map_nil, applyStores, List.foldl_cons, List.foldl_nil,
      writeMem]
    change (if a = b + n then g n else
      applyStores m ((List.range n).map (fun y => (b + y, g y))) a) = _
    rw [ih]
    by_cases h1 : a = b + n
    · subst h1
      have : b ≤ b + n ∧ b + n < b + (n + 1) := by omega
      simp [this]
    · by_cases h2 : b ≤ a ∧ a < b + n
      · have : b ≤ a ∧ a < b + (n + 1) := by omega
        simp [h1, h2, this]
      · have : ¬ (b ≤ a ∧ a < b + (n + 1)) := by omega
        simp [h1, h2, this]

theorem gridStores_succ (base : Nat) (val : Nat → Nat → Nat) (n : Nat) :
    gridStores base val (n + 1) =
      gridStores base val n ++
        (List.range 160).map (fun y => (base + 176 * n + y, val n y)) := rfl

theorem applyStores_gridStores (m : Nat → Nat) (base : Nat) (val : Nat → Nat → Nat)
    (n a : Nat) :
    applyStores m (gridStores base val n) a =
      if base ≤ a ∧ (a - base) / 176 < n ∧ (a - base) % 176 < 160 then
        val ((a - base) / 176) ((a - base) % 176)
      else m a := by
  induction n with
  | zero =>
    have : ¬ (base ≤ a ∧ (a - base) / 176 < 0 ∧ (a - base) % 176 < 160) := by omega
    simp [gridStores, forLoop, applyStores, this]
  | succ n ih =>
    rw [gridStores_succ, applyStores_append, applyStores_range_map, ih]
    by_cases h1 : base + 176 * n ≤ a ∧ a < base + 176 * n + 160
    · have e1 : (a - base) / 176 = n := by omega
      have e2 : (a - base) % 176 = a - (base + 176 * n) := by omega
      have : base ≤ a ∧ (a - base) / 176 < n + 1 ∧ (a - base) % 176 < 160 := by omega
      rw [if_pos h1, if_pos this, e1, e2]
    · rw [if_neg h1]
      by_cases h2 : base ≤ a ∧ (a - base) / 176 < n ∧ (a - base) % 176 < 160
      · have : base ≤ a ∧ (a - base) / 176 < n + 1 ∧ (a - base) % 176 < 160 := by omega
        rw [if_pos h2, if_pos this]
      · have : ¬ (base ≤ a ∧ (a - base) / 176 < n + 1 ∧ (a - base) % 176 < 160) := by omega
        rw [if_neg h2, if_neg this]

theorem applyStores_gridStores_at (m : Nat → Nat) (base : Nat) (val : Nat → Nat → Nat)
    (n i y : Nat) (hi : i < n) (hy : y < 160) :
    applyStores m (gridStores base val n) (base + 176 * i + y) = val i y := by
  rw [applyStores_gridStores]
  have e0 : base + 176 * i + y - base = 176 * i + y := by omega
  have e1 : (176 * i + y) / 176 = i := by omega
  have e2 : (176 * i + y) % 176 = y := by omega
  rw [e0, e1, e2, if_pos ⟨by omega, hi, by omega⟩]

theorem mem_gridStores_addr (base : Nat) (val : Nat → Nat → Nat) (n a : Nat) :
    a ∈ (gridStores base val n).map Prod.fst ↔
      ∃ i y, i < n ∧ y < 160 ∧ a = base + 176 * i + y := by
  induction n with
  | zero => simp [gridStores, forLoop]
  | succ n ih =>
    rw [gridStores_succ, List.map_append, List.mem_append, ih]
    simp only [List.map_map, List.mem_map, List.mem_range, Function.comp]
    constructor
    · rintro (⟨i, y, hi, hy, rfl⟩ | ⟨y, hy, rfl⟩)
      · exact ⟨i, y, by omega, hy, rfl⟩
      · exact ⟨n, y, by omega, hy, rfl⟩
    · rintro ⟨i, y, hi, hy, rfl⟩
      by_cases h : i < n
      · exact Or.inl ⟨i, y, h, hy, rfl⟩
      · have : i = n := by omega
        subst this
        exact Or.inr ⟨y, hy, rfl⟩

theorem nodup_gridStores_addr (base : Nat) (val : Nat → Nat → Nat) (n : Nat) :
    ((gridStores base val n).map Prod.fst).Nodup := by
  induction n with
  | zero => simp [gridStores, forLoop]
  | succ n ih =>
    rw [gridStores_succ, List.map_append, List.nodup_append]
    refine ⟨ih, ?_, ?_⟩
    · rw [List.map_map]
      apply List.Nodup.map_on _ (List.nodup_range 160)
      intro x _ y _ h
      simp only [Function.comp] at h
      omega
    · intro a h1 h2
      rw [mem_gridStores_addr] at h1
      obtain ⟨i, y, hi, hy, rfl⟩ := h1
      simp only [List.map_map, List.mem_map, List.mem_range, Function.comp] at h2
      obtain ⟨y2, hy2, h⟩ := h2
      omega

theorem length_gridStores (base : Nat) (val : Nat → Nat → Nat) (n : Nat) :
    (gridStores base val n).length = 160 * n := by
  induction n with
  | zero => rfl
  | succ n ih =>
    rw [gridStores_succ, List.length_append, ih, List.length_map, List.length_range]
    omega


theorem rngStep_valid (s : RngState) (h : s.Valid) : (rngStep s).Valid := by
  obtain ⟨hx, hy, hz⟩ := h
  refine ⟨hy, hz, ?_⟩
  show (_ ^^^ s.y ^^^ s.z) < 2 ^ 32
  have h1 : s.x ^^^ ((s.x <<< 16) % 2 ^ 32) < 2 ^ 32 :=
    Nat.xor_lt_two_pow hx (Nat.mod_lt _ (by norm_num))
  have h2 : (s.x ^^^ ((s.x <<< 16) % 2 ^ 32)) >>> 5 < 2 ^ 32 :=
    lt_of_le_of_lt (by rw [Nat.shiftRight_eq_div_pow]; exact Nat.div_le_self _ _) h1
  exact Nat.xor_lt_two_pow (Nat.xor_lt_two_pow
    (Nat.xor_lt_two_pow (Nat.xor_lt_two_pow h1 h2) (Nat.mod_lt _ (by norm_num))) hy) hz

/-! ### The fills of `resetScene` -/

theorem rngOut_iterate (s : RngState) (a b : Nat) :
    rngOut (rngStep^[a] s) b = rngOut s (b + a) := by
  unfold rngOut
  rw [Function.iterate_add_apply]

theorem patternFill_eq (startingTiles : Nat → Nat → Nat) :
    patternFill startingTiles = gridStores 8 startingTiles 30 := by
  unfold patternFill gridStores
  apply forLoop_congr
  intro i _ ws
  congr 1
  unfold memcpy32 tileWord
  apply List.map_congr_left
  intro y _
  congr 1
  omega

theorem forLoop_succ {σ : Type} (n : Nat) (body : Nat → σ → σ) (s : σ) :
    forLoop (n + 1) body s = body n (forLoop n body s) := rfl

theorem fillTile (i j : Nat) (st : FillState) :
    (fillTileLoop i j st).rng = rngStep^[4] st.rng ∧
    (fillTileLoop i j st).stores =
      st.stores ++ (List.range 8).map (fun k =>
        (tileWord 0 (22 * i + j + 1) k, randomMask (rngOut st.rng (k / 2)))) := by
  have hr : List.range 8 = [0, 1, 2, 3, 4, 5, 6, 7] := by decide
  rw [hr]
  constructor
  · rfl
  · simp only [fillTileLoop, forLoop, fillBody, List.append_assoc, List.cons_append,
      List.nil_append, List.map_cons, List.map_nil]
    rfl

theorem fillColumn (i n : Nat) (st : FillState) :
    (forLoop n (fun j st => fillTileLoop i j st) st).rng = rngStep^[4 * n] st.rng ∧
    (forLoop n (fun j st => fillTileLoop i j st) st).stores =
      st.stores ++ (List.range (8 * n)).map (fun t =>
        (8 + 176 * i + t, randomMask (rngOut st.rng (t / 2)))) := by
  induction n with
  | zero => simp [forLoop]
  | succ n ih =>
    obtain ⟨ih1, ih2⟩ := ih
    obtain ⟨h1, h2⟩ := fillTile i n (forLoop n (fun j st => fillTileLoop i j st) st)
    rw [forLoop_succ]
    constructor
    · rw [h1, ih1, ← Function.iterate_add_apply, show 4 * (n + 1) = 4 + 4 * n by omega]
    · rw [h2, ih2, ih1, show 8 * (n + 1) = 8 * n + 8 by omega, List.range_add,
        List.map_append, List.append_assoc, List.map_map]
      congr 1
      congr 1
      apply List.map_congr_left
      intro k hk
      rw [List.mem_range] at hk
      have ea : tileWord 0 (22 * i + n + 1) k = 8 + 176 * i + (8 * n + k) := by
        unfold tileWord
        omega
      have eo : k / 2 + 4 * n = (8 * n + k) / 2 := by omega
      simp only [Function.comp, rngOut_iterate, ea, eo]

theorem fillAll (n : Nat) (st : FillState) :
    (forLoop n (fun i st => fillColumnLoop i st) st).rng = rngStep^[80 * n] st.rng ∧
    (forLoop n (fun i st => fillColumnLoop i st) st).stores =
      st.stores ++ gridStores 8 (fun i y => randomMask (rngOut st.rng (80 * i + y / 2))) n := by
  induction n with
  | zero => simp [forLoop, gridStores]
  | succ n ih =>
    obtain ⟨ih1, ih2⟩ := ih
    obtain ⟨h1, h2⟩ := fillColumn n 20 (forLoop n (fun i st => fillColumnLoop i st) st)
    rw [gridStores_succ, forLoop_succ]
    change (forLoop 20 (fun j st => fillTileLoop n j st) _).rng = _ ∧
      (forLoop 20 (fun j st => fillTileLoop n j st) _).stores = _
    constructor
    · rw [h1, ih1, ← Function.iterate_add_apply, show 80 * (n + 1) = 4 * 20 + 80 * n by omega]
    · have e160 : 8 * 20 = 160 := by norm_num
      rw [e160] at h2
      rw [h2, ih2, ih1, List.append_assoc]
      refine congrArg (fun l => st.stores ++ (gridStores 8 _ n ++ l)) ?_
      apply List.map_congr_left
      intro y _
      have eo : y / 2 + 80 * n = 80 * n + y / 2 := by omega
      rw [rngOut_iterate, eo]

theorem randomFill_stores (rng : RngState) :
    (randomFill rng).stores =
      gridStores 8 (fun i y => randomMask (rngOut rng (80 * i + y / 2))) 30 := by
  have h := (fillAll 30 ⟨rng, 0, []⟩).2
  rw [List.nil_append] at h
  exact h

/-! ### `initScene` -/

theorem forLoop_writeMem (n : Nat) (f g : Nat → Nat) (se : Nat → Nat) :
    forLoop n (fun i se => writeMem se (f i) (g i)) se =
      applyStores se ((List.range n).map (fun i => (f i, g i))) := by
  induction n with
  | zero => rfl
  | succ n ih =>
    rw [forLoop_succ, ih, List.range_succ, List.map_append, applyStores_append]
    rfl

theorem initScreenBlock_rows (n : Nat) (se : Nat → Nat) (a : Nat) :
    forLoop n (fun j se =>
      forLoop 30 (fun i se => writeMem se (j * 32 + i) ((22 * i + j + 1) % 2 ^ 16)) se) se a =
      if a / 32 < n ∧ a % 32 < 30 then (22 * (a % 32) + a / 32 + 1) % 2 ^ 16 else se a := by
  induction n with
  | zero =>
    have : ¬ (a / 32 < 0 ∧ a % 32 < 30) := by omega
    rw [if_neg this]
    rfl
  | succ n ih =>
    rw [forLoop_succ, forLoop_writeMem, applyStores_range_map, ih]
    by_cases h1 : n * 32 ≤ a ∧ a < n * 32 + 30
    · have e1 : a / 32 = n := by omega
      have e2 : a % 32 = a - n * 32 := by omega
      have : a / 32 < n + 1 ∧ a % 32 < 30 := by omega
      rw [if_pos h1, if_pos this, e2, e1]
    · rw [if_neg h1]
      by_cases h2 : a / 32 < n ∧ a % 32 < 30
      · have : a / 32 < n + 1 ∧ a % 32 < 30 := by omega
        rw [if_pos h2, if_pos this]
      · have : ¬ (a / 32 < n + 1 ∧ a % 32 < 30) := by omega
        rw [if_neg h2, if_neg this]

theorem initScene_screenEntry (monogramTiles : List Nat) (m : Machine) (i j : Nat)
    (hi : i < 30) (hj : j < 20) :
    (initScene monogramTiles m).se31 (j * 32 + i) = tileIndex i j := by
  show initScreenBlock m.se31 (j * 32 + i) = _
  unfold initScreenBlock
  rw [initScreenBlock_rows]
  have e1 : (j * 32 + i) / 32 = j := by omega
  have e2 : (j * 32 + i) % 32 = i := by omega
  rw [e1, e2, if_pos ⟨hj, hi⟩]
  unfold tileIndex
  omega

theorem initScene_cleared (monogramTiles : List Nat) (m : Machine) (a : Nat) (ha : a < 5280) :
    (initScene monogramTiles m).vram a = 0 ∧ (initScene monogramTiles m).vram (8192 + a) = 0 := by
  have h0 : ∀ b, (initScene monogramTiles m).vram b =
      if 16392 ≤ b ∧ b < 16392 + monogramTiles.length then monogramTiles.getD (b - 16392) 0
      else if 8192 ≤ b ∧ b < 8192 + 5280 then 0
      else if 0 ≤ b ∧ b < 0 + 5280 then 0 else m.vram b := by
    intro b
    have e5280 : 660 * 32 / 4 = 5280 := by norm_num
    have et0 : tileWord 0 0 0 = 0 := rfl
    have et2 : tileWord 2 0 0 = 8192 := rfl
    have et4 : tileWord 4 1 0 = 16392 := rfl
    unfold initScene initSceneStores memset32 memcpy32
    simp only [e5280, et0, et2, et4]
    rw [applyStores_append, applyStores_append, applyStores_range_map, applyStores_range_map,
      applyStores_range_map]
  constructor
  · rw [h0, if_neg (by omega), if_neg (by omega), if_pos (by omega)]
  · rw [h0, if_neg (by omega), if_pos (by omega)]

/-- C3: the tile-index map `t(i, j) = 22*i + j + 1` that `initScene` stores in the screen block
is injective on 30 x 20, takes values in 1..658, never hits a border tile index (0 or 21 modulo
22), is column-major with the documented corner values, and its extension `22*i + r` to buffer
rows `r < 22` is a bijection between the 30 x 22 coordinates and the tile positions 0..659,
which are the tiles `initScene` clears in both buffers. -/
theorem tileIndex_layout (monogramTiles : List Nat) (m : Machine) :
    (∀ i j, i < 30 → j < 20 → (initScene monogramTiles m).se31 (j * 32 + i) = tileIndex i j) ∧
    (∀ i j i2 j2, i < 30 → j < 20 → i2 < 30 → j2 < 20 →
      tileIndex i j = tileIndex i2 j2 → i = i2 ∧ j = j2) ∧
    (∀ i j, i < 30 → j < 20 → 1 ≤ tileIndex i j ∧ tileIndex i j ≤ 658 ∧
      tileIndex i j % 22 ≠ 0 ∧ tileIndex i j % 22 ≠ 21) ∧
    (∀ i j, tileIndex i (j + 1) = tileIndex i j + 1 ∧ tileIndex (i + 1) j = tileIndex i j + 22 ∧
      tileIndex i j = 22 * i + (j + 1)) ∧
    (tileIndex 0 0 = 1 ∧ tileIndex 29 0 = 639 ∧ tileIndex 29 19 = 658) ∧
    (∀ i r i2 r2, i < 30 → r < 22 → i2 < 30 → r2 < 22 →
      22 * i + r = 22 * i2 + r2 → i = i2 ∧ r = r2) ∧
    (∀ i r, i < 30 → r < 22 → 22 * i + r < 660) ∧
    (∀ t, t < 660 → ∃ i r, i < 30 ∧ r < 22 ∧ t = 22 * i + r) ∧
    (∀ t k, t < 660 → k < 8 → (initScene monogramTiles m).vram (tileWord 0 t k) = 0 ∧
      (initScene monogramTiles m).vram (tileWord 2 t k) = 0) := by
  refine ⟨fun i j hi hj => initScene_screenEntry monogramTiles m i j hi hj, ?_, ?_, ?_, ?_, ?_,
    ?_, ?_, ?_⟩
  · intro i j i2 j2 hi hj hi2 hj2 h
    unfold tileIndex at h
    omega
  · intro i j hi hj
    unfold tileIndex
    omega
  · intro i j
    unfold tileIndex
    omega
  · decide
  · intro i r i2 r2 hi hr hi2 hr2 h
    omega
  · intro i r hi hr
    omega
  · intro t ht
    exact ⟨t / 22, t % 22, by omega, by omega, by omega⟩
  · intro t k ht hk
    have h := initScene_cleared monogramTiles m (8 * t + k) (by omega)
    unfold tileWord
    constructor
    · rw [show 4096 * 0 + 8 * t + k = 8 * t + k by omega]
      exact h.1
    · rw [show 4096 * 2 + 8 * t + k = 8192 + (8 * t + k) by omega]
      exact h.2

/-- Witness for `tileIndex_layout`: on the start-up machine with an empty font asset, screen
entry (column 3, row 4) holds tile index 71. -/
theorem tileIndex_layout_witness :
    (initScene [] machine0).se31 (4 * 32 + 3) = tileIndex 3 4 ∧ tileIndex 3 4 = 71 :=
  ⟨(tileIndex_layout [] machine0).1 3 4 (by norm_num) (by norm_num), by decide⟩

/-! ### `resetScene` -/

theorem resetSceneStores_grid (startingTiles : Nat → Nat → Nat) (random : Bool)
    (rng : RngState) :
    (resetSceneStores startingTiles random rng).1 =
      gridStores 8
        (if random then fun i y => randomMask (rngOut rng (80 * i + y / 2)) else startingTiles)
        30 := by
  unfold resetSceneStores
  cases random
  · simp only [Bool.false_eq_true, if_false]
    exact patternFill_eq startingTiles
  · simp only [if_true]
    exact randomFill_stores rng

theorem resetScene_vram (startingTiles : Nat → Nat → Nat) (random : Bool) (m : Machine) :
    (resetScene startingTiles random m).vram =
      applyStores m.vram (gridStores 8
        (if random then fun i y => randomMask (rngOut m.rng (80 * i + y / 2))
          else startingTiles) 30) := by
  rw [← resetSceneStores_grid]
  rfl

theorem updateScene_vram (tm1d tm0d : Nat) (m : Machine) :
    (updateScene tm1d tm0d m).vram =
      conwaySimulationAdvance m.vram (tileWord (kernelArgs m).1 1 0)
        (tileWord (kernelArgs m).2 1 0) := by
  unfold updateScene kernelArgs
  simp only []

/-- C4: in both modes the stores of `resetScene` go, each address exactly once, to the 4800
interior words `176*i + 8 + y` (`i < 30`, `y < 160`) of character block 0 and to no other word,
so every word outside that set, and in particular every word of the border tiles `22*i` and
`22*i + 21`, keeps its value. -/
theorem resetScene_writes_interior (startingTiles : Nat → Nat → Nat) (random : Bool)
    (m : Machine) :
    ((resetSceneStores startingTiles random m.rng).1.map Prod.fst).Nodup ∧
    (∀ a, a ∈ (resetSceneStores startingTiles random m.rng).1.map Prod.fst ↔
      ∃ i y, i < 30 ∧ y < 160 ∧ a = 176 * i + 8 + y) ∧
    (resetSceneStores startingTiles random m.rng).1.length = 4800 ∧
    (resetScene startingTiles random m).vram =
      applyStores m.vram (resetSceneStores startingTiles random m.rng).1 ∧
    (∀ a, (¬ ∃ i y, i < 30 ∧ y < 160 ∧ a = 176 * i + 8 + y) →
      (resetScene startingTiles random m).vram a = m.vram a) ∧
    (∀ i k, i < 30 → k < 8 →
      (resetScene startingTiles random m).vram (tileWord 0 (22 * i) k) =
        m.vram (tileWord 0 (22 * i) k) ∧
      (resetScene startingTiles random m).vram (tileWord 0 (22 * i + 21) k) =
        m.vram (tileWord 0 (22 * i + 21) k)) := by
  have hout : ∀ a, (¬ ∃ i y, i < 30 ∧ y < 160 ∧ a = 176 * i + 8 + y) →
      (resetScene startingTiles random m).vram a = m.vram a := by
    intro a ha
    rw [resetScene_vram, applyStores_gridStores, if_neg]
    rintro ⟨h1, h2, h3⟩
    exact ha ⟨(a - 8) / 176, (a - 8) % 176, h2, h3, by omega⟩
  refine ⟨?_, ?_, ?_, rfl, hout, ?_⟩
  · rw [resetSceneStores_grid]
    exact nodup_gridStores_addr _ _ _
  · intro a
    rw [resetSceneStores_grid, mem_gridStores_addr]
    constructor
    · rintro ⟨i, y, hi, hy, rfl⟩
      exact ⟨i, y, hi, hy, by omega⟩
    · rintro ⟨i, y, hi, hy, rfl⟩
      exact ⟨i, y, hi, hy, by omega⟩
  · rw [resetSceneStores_grid, length_gridStores]
  · intro i k hi hk
    constructor
    · apply hout
      rintro ⟨i2, y, hi2, hy, h⟩
      unfold tileWord at h
      omega
    · apply hout
      rintro ⟨i2, y, hi2, hy, h⟩
      unfold tileWord at h
      omega

/-- Witness for `resetScene_writes_interior`: a fixed-pattern reset of the start-up machine
leaves word 3 of border tile 22 unchanged. -/
theorem resetScene_writes_interior_witness :
    (resetScene (fun _ _ => 1) false machine0).vram (tileWord 0 (22 * 1) 3) =
      machine0.vram (tileWord 0 (22 * 1) 3) :=
  ((resetScene_writes_interior (fun _ _ => 1) false machine0).2.2.2.2.2 1 3
    (by norm_num) (by norm_num)).1

theorem updateSceneRun_curScreen (ts : List (Nat × Nat)) (m : Machine)
    (h : m.curScreen = 1) :
    (updateSceneRun ts m).curScreen = if ts.length % 2 = 0 then 1 else 0 := by
  induction ts using List.reverseRecOn with
  | nil => simpa using h
  | append_singleton ts t ih =>
    have hstep : updateSceneRun (ts ++ [t]) m = updateScene t.1 t.2 (updateSceneRun ts m) := by
      unfold updateSceneRun
      rw [List.foldl_append]
      rfl
    rw [hstep]
    show lnot (updateSceneRun ts m).curScreen = _
    rw [ih, List.length_append, List.length_singleton]
    by_cases hp : ts.length % 2 = 0
    · have : ¬ ((ts.length + 1) % 2 = 0) := by omega
      rw [if_pos hp, if_neg this]
      rfl
    · have : (ts.length + 1) % 2 = 0 := by omega
      rw [if_neg hp, if_pos this]
      rfl

/-- C2: after a `resetScene`, the `k`-th `updateScene` call (`k = ts.length + 1`, with `ts` the
calls made before it) passes the kernel source block 0 and destination block 2 when `k` is odd
and source block 2, destination block 0 when `k` is even; source and destination differ, each
call's source is the previous call's destination, and the first call reads block 0, where all
stores of `resetScene` went. -/
theorem updateScene_pingpong (startingTiles : Nat → Nat → Nat) (random : Bool) (m : Machine)
    (ts : List (Nat × Nat)) (t : Nat × Nat) :
    kernelArgs (updateSceneRun ts (resetScene startingTiles random m)) =
      (if (ts.length + 1) % 2 = 1 then (0, 2) else (2, 0)) ∧
    (updateScene t.1 t.2 (updateSceneRun ts (resetScene startingTiles random m))).vram =
      conwaySimulationAdvance (updateSceneRun ts (resetScene startingTiles random m)).vram
        (tileWord (kernelArgs (updateSceneRun ts (resetScene startingTiles random m))).1 1 0)
        (tileWord (kernelArgs (updateSceneRun ts (resetScene startingTiles random m))).2 1 0) ∧
    (kernelArgs (updateSceneRun ts (resetScene startingTiles random m))).1 ≠
      (kernelArgs (updateSceneRun ts (resetScene startingTiles random m))).2 ∧
    (kernelArgs (updateSceneRun (ts ++ [t]) (resetScene startingTiles random m))).1 =
      (kernelArgs (updateSceneRun ts (resetScene startingTiles random m))).2 ∧
    kernelArgs (resetScene startingTiles random m) = (0, 2) ∧
    (∀ a, a ∈ (resetSceneStores startingTiles random m.rng).1.map Prod.fst →
      ∃ tile k, 1 ≤ tile ∧ tile ≤ 658 ∧ k < 8 ∧ a = tileWord 0 tile k) := by
  have hargs : ∀ us : List (Nat × Nat),
      kernelArgs (updateSceneRun us (resetScene startingTiles random m)) =
        (if (us.length + 1) % 2 = 1 then (0, 2) else (2, 0)) := by
    intro us
    unfold kernelArgs
    rw [updateSceneRun_curScreen us _ rfl]
    by_cases hp : us.length % 2 = 0
    · have : (us.length + 1) % 2 = 1 := by omega
      rw [if_pos hp, if_pos this]
      rfl
    · have : ¬ ((us.length + 1) % 2 = 1) := by omega
      rw [if_neg hp, if_neg this]
      rfl
  refine ⟨hargs ts, updateScene_vram _ _ _, ?_, ?_, hargs [], ?_⟩
  · rw [hargs ts]
    split <;> simp
  · rw [hargs ts, hargs (ts ++ [t]), List.length_append, List.length_singleton]
    by_cases hp : (ts.length + 1) % 2 = 1
    · have : ¬ ((ts.length + 1 + 1) % 2 = 1) := by omega
      rw [if_pos hp, if_neg this]
    · have : (ts.length + 1 + 1) % 2 = 1 := by omega
      rw [if_neg hp, if_pos this]
  · intro a ha
    rw [resetSceneStores_grid, mem_gridStores_addr] at ha
    obtain ⟨i, y, hi, hy, rfl⟩ := ha
    refine ⟨22 * i + 1 + y / 8, y % 8, by omega, by omega, by omega, ?_⟩
    unfold tileWord
    omega

theorem xor_mod_pow (a b n : Nat) : (a ^^^ b) % 2 ^ n = (a % 2 ^ n) ^^^ (b % 2 ^ n) := by
  apply Nat.eq_of_testBit_eq
  intro i
  simp only [Nat.testBit_mod_two_pow, Nat.testBit_xor]
  by_cases h : i < n <;> simp [h]

theorem specMix_eq (x : Nat) (hx : x < 2 ^ 32) :
    specMix x =
      ((x ^^^ ((x <<< 16) % 2 ^ 32)) ^^^ ((x ^^^ ((x <<< 16) % 2 ^ 32)) >>> 5)) ^^^
        ((((x ^^^ ((x <<< 16) % 2 ^ 32)) ^^^ ((x ^^^ ((x <<< 16) % 2 ^ 32)) >>> 5)) <<< 1)
          % 2 ^ 32) := by
  have h1 : x ^^^ ((x <<< 16) % 2 ^ 32) < 2 ^ 32 :=
    Nat.xor_lt_two_pow hx (Nat.mod_lt _ (by norm_num))
  have h2 : (x ^^^ ((x <<< 16) % 2 ^ 32)) >>> 5 < 2 ^ 32 :=
    lt_of_le_of_lt (by rw [Nat.shiftRight_eq_div_pow]; exact Nat.div_le_self _ _) h1
  have e1 : (x ^^^ (x <<< 16)) % 2 ^ 32 = x ^^^ ((x <<< 16) % 2 ^ 32) := by
    rw [xor_mod_pow, Nat.mod_eq_of_lt hx]
  have e2 : ∀ a, a < 2 ^ 32 → (a ^^^ (a >>> 5)) % 2 ^ 32 = a ^^^ (a >>> 5) := by
    intro a ha
    exact Nat.mod_eq_of_lt (Nat.xor_lt_two_pow ha
      (lt_of_le_of_lt (by rw [Nat.shiftRight_eq_div_pow]; exact Nat.div_le_self _ _) ha))
  have e3 : ∀ b, b < 2 ^ 32 → (b ^^^ (b <<< 1)) % 2 ^ 32 = b ^^^ ((b <<< 1) % 2 ^ 32) := by
    intro b hb
    rw [xor_mod_pow, Nat.mod_eq_of_lt hb]
  unfold specMix
  simp only [e1, e2 _ h1, e3 _ (Nat.xor_lt_two_pow h1 h2)]

theorem rngAfter_valid (n : Nat) : (rngAfter n).Valid := by
  induction n with
  | zero => exact ⟨by decide, by decide, by decide⟩
  | succ n ih =>
    unfold rngAfter at *
    rw [Function.iterate_succ_apply']
    exact rngStep_valid _ ih

theorem rngAfter_eq (n : Nat) : rngAfter n = ⟨specSeq n, specSeq (n + 1), specSeq (n + 2)⟩ := by
  induction n with
  | zero => rfl
  | succ n ih =>
    have hv := rngAfter_valid n
    have hstep : rngAfter (n + 1) = rngStep (rngAfter n) := by
      unfold rngAfter
      rw [Function.iterate_succ_apply']
    rw [hstep]
    rw [ih] at hv ⊢
    have hm := specMix_eq (specSeq n) hv.1
    show RngState.mk _ _ _ = _
    simp only [specSeq, hm]

/-- C6: the `(n+1)`-th call of `xorshf96` since program start returns `r n` and leaves the
statics at `(r (n-2), r (n-1), r n)`, where `r` is the reference sequence defined from the seed
constants by `r n = m (r (n-3)) xor r (n-2) xor r (n-1)`; the first call returns `0x5EADA3D7`. -/
theorem xorshf96_reference_sequence (n : Nat) :
    (xorshf96 (rngAfter n)).1 = specR n ∧
    (xorshf96 (rngAfter n)).2 = ⟨specR ((n : Int) - 2), specR ((n : Int) - 1), specR n⟩ ∧
    (specR (-3) = 123456789 ∧ specR (-2) = 362436069 ∧ specR (-1) = 521288629) ∧
    specR n = specMix (specR ((n : Int) - 3)) ^^^ specR ((n : Int) - 2) ^^^ specR ((n : Int) - 1) ∧
    (xorshf96 seed).1 = 0x5EADA3D7 ∧ (xorshf96 seed).1 = 1588437975 := by
  have e0 : ((n : Int) + 3).toNat = n + 3 := by omega
  have e1 : ((n : Int) - 1 + 3).toNat = n + 2 := by omega
  have e2 : ((n : Int) - 2 + 3).toNat = n + 1 := by omega
  have e3 : ((n : Int) - 3 + 3).toNat = n := by omega
  have hs : (xorshf96 (rngAfter n)).2 = rngAfter (n + 1) := by
    unfold rngAfter
    rw [Function.iterate_succ_apply']
    rfl
  have hz : (xorshf96 (rngAfter n)).1 = (xorshf96 (rngAfter n)).2.z := rfl
  refine ⟨?_, ?_, ⟨rfl, rfl, rfl⟩, ?_, ?_, ?_⟩
  · rw [hz, hs, rngAfter_eq]
    simp only [specR, e0]
  · rw [hs, rngAfter_eq]
    simp only [specR, e0, e1, e2]
  · simp only [specR, e0, e1, e2, e3, specSeq]
  · decide
  · decide

/-! ### The period of `xorshf96` -/

theorem sx_comm (a b : RngState) : sx a b = sx b a := by
  simp only [sx, Nat.xor_comm]

theorem sx_assoc (a b c : RngState) : sx (sx a b) c = sx a (sx b c) := by
  simp only [sx, Nat.xor_assoc]

theorem sx_self (a : RngState) : sx a a = zeroState := by
  simp only [sx, Nat.xor_self, zeroState]

theorem sx_zero (a : RngState) : sx a zeroState = a := by
  simp only [sx, zeroState, Nat.xor_zero]

theorem zero_sx (a : RngState) : sx zeroState a = a := by
  simp only [sx, zeroState, Nat.zero_xor]

theorem sx_sx_sx (a b c d : RngState) : sx (sx a b) (sx c d) = sx (sx a c) (sx b d) := by
  rw [sx_assoc, sx_assoc, ← sx_assoc b c d, sx_comm b c, sx_assoc c b d]

theorem shiftLeft_xor (a b k : Nat) : (a ^^^ b) <<< k = (a <<< k) ^^^ (b <<< k) := by
  apply Nat.eq_of_testBit_eq
  intro i
  simp only [Nat.testBit_shiftLeft, Nat.testBit_xor]
  by_cases h : i ≥ k <;> simp [h]

theorem shiftRight_xor (a b k : Nat) : (a ^^^ b) >>> k = (a >>> k) ^^^ (b >>> k) := by
  apply Nat.eq_of_testBit_eq
  intro i
  simp only [Nat.testBit_shiftRight, Nat.testBit_xor]

theorem xor_xor_xor (a b c d : Nat) : (a ^^^ b) ^^^ (c ^^^ d) = (a ^^^ c) ^^^ (b ^^^ d) := by
  rw [Nat.xor_assoc, Nat.xor_assoc, ← Nat.xor_assoc b c d, Nat.xor_comm b c, Nat.xor_assoc c b d]

theorem rngStep_sx (a b : RngState) : rngStep (sx a b) = sx (rngStep a) (rngStep b) := by
  have h1 : ∀ u v : Nat, (u ^^^ v) ^^^ (((u ^^^ v) <<< 16) % 2 ^ 32) =
      (u ^^^ ((u <<< 16) % 2 ^ 32)) ^^^ (v ^^^ ((v <<< 16) % 2 ^ 32)) := by
    intro u v
    rw [shiftLeft_xor, xor_mod_pow, xor_xor_xor]
  have h2 : ∀ u v : Nat, (u ^^^ v) ^^^ ((u ^^^ v) >>> 5) =
      (u ^^^ (u >>> 5)) ^^^ (v ^^^ (v >>> 5)) := by
    intro u v
    rw [shiftRight_xor, xor_xor_xor]
  have h3 : ∀ u v : Nat, (u ^^^ v) ^^^ (((u ^^^ v) <<< 1) % 2 ^ 32) =
      (u ^^^ ((u <<< 1) % 2 ^ 32)) ^^^ (v ^^^ ((v <<< 1) % 2 ^ 32)) := by
    intro u v
    rw [shiftLeft_xor, xor_mod_pow, xor_xor_xor]
  simp only [rngStep, xorshf96, sx]
  rw [h1, h2, h3]
  have h4 : ∀ p q c d e f : Nat,
      ((p ^^^ q) ^^^ (c ^^^ d)) ^^^ (e ^^^ f) = ((p ^^^ c) ^^^ e) ^^^ ((q ^^^ d) ^^^ f) := by
    intro p q c d e f
    rw [xor_xor_xor p q c d, xor_xor_xor (p ^^^ c) (q ^^^ d) e f]
  congr 1
  exact h4 _ _ _ _ _ _

theorem rngStep_zero : rngStep zeroState = zeroState := by decide

theorem act_zero (s : RngState) : act 0 s = zeroState := by
  rw [act]
  simp

theorem act_unfold (a : Nat) (s : RngState) :
    act a s = sx (if a % 2 = 1 then s else zeroState) (act (a / 2) (rngStep s)) := by
  by_cases h : a = 0
  · subst h
    simp [act_zero, sx_zero]
  · rw [act]
    simp [h]

theorem act_zeroState (a : Nat) : act a zeroState = zeroState := by
  induction a using Nat.strong_induction_on with
  | _ a ih =>
    by_cases h : a = 0
    · subst h; exact act_zero _
    · rw [act_unfold, rngStep_zero, ih (a / 2) (by omega)]
      split <;> exact sx_self _

theorem act_sx (a : Nat) (s t : RngState) : act a (sx s t) = sx (act a s) (act a t) := by
  induction a using Nat.strong_induction_on generalizing s t with
  | _ a ih =>
    by_cases h : a = 0
    · subst h; simp [act_zero, sx_zero]
    · rw [act_unfold a (sx s t), act_unfold a s, act_unfold a t, rngStep_sx,
        ih (a / 2) (by omega)]
      split
      · rw [sx_sx_sx]
      · rw [sx_sx_sx, sx_self]

theorem act_xor (a b : Nat) (s : RngState) : act (a ^^^ b) s = sx (act a s) (act b s) := by
  induction a using Nat.strong_induction_on generalizing b s with
  | _ a ih =>
    by_cases h : a = 0
    · subst h; simp [act_zero, zero_sx]
    · rw [act_unfold (a ^^^ b) s, act_unfold a s, act_unfold b s, Nat.xor_div_two,
        ih (a / 2) (by omega), sx_sx_sx]
      congr 1
      have hx : (a ^^^ b) % 2 = (a % 2 + b % 2) % 2 := by
        have h1 := @Nat.xor_mod_two_eq_one a b
        rcases Nat.mod_two_eq_zero_or_one a with ha | ha <;>
        rcases Nat.mod_two_eq_zero_or_one b with hb | hb <;>
        rcases Nat.mod_two_eq_zero_or_one (a ^^^ b) with hab | hab <;>
        simp [ha, hb, hab] at h1 ⊢
      rw [hx]
      rcases Nat.mod_two_eq_zero_or_one a with ha | ha <;>
      rcases Nat.mod_two_eq_zero_or_one b with hb | hb <;>
      simp [ha, hb, sx_self, sx_zero, zero_sx]

theorem act_two_mul (a : Nat) (s : RngState) : act (2 * a) s = act a (rngStep s) := by
  rw [act_unfold (2 * a) s]
  have h1 : (2 * a) % 2 = 0 := by omega
  have h2 : 2 * a / 2 = a := by omega
  rw [h1, h2]
  simp [zero_sx]

theorem act_rngStep (a : Nat) (s : RngState) : act a (rngStep s) = rngStep (act a s) := by
  induction a using Nat.strong_induction_on generalizing s with
  | _ a ih =>
    by_cases h : a = 0
    · subst h; simp [act_zero, rngStep_zero]
    · rw [act_unfold a (rngStep s), act_unfold a s, rngStep_sx, ih (a / 2) (by omega)]
      split
      · rfl
      · rw [rngStep_zero]

theorem act_one (s : RngState) : act 1 s = s := by
  rw [act_unfold]
  simp [act_zero, sx_zero]

theorem act_two (s : RngState) : act 2 s = rngStep s := by
  rw [show 2 = 2 * 1 by rfl, act_two_mul, act_one]

theorem act_shift (a n : Nat) (s : RngState) : act (a * 2 ^ n) s = act a (rngStep^[n] s) := by
  induction n generalizing s with
  | zero => simp
  | succ n ih =>
    rw [show a * 2 ^ (n + 1) = 2 * (a * 2 ^ n) by ring, act_two_mul, ih,
      Function.iterate_succ_apply]

theorem forceNat_eq {α : Type} (x : Nat) (k : Nat → α) : forceNat x k = k x := by
  cases x <;> rfl

theorem basisAnnihilated_true : basisAnnihilated = true := by decide!

theorem powmod_full : powmod (2 ^ 96 - 1) = 1 := by decide!

theorem inv_3 : mulmod 1827923491167072782980564062 (powmod ((2 ^ 96 - 1) / 3) ^^^ 1) = 1 := by
  decide!

theorem iterate_valid (n : Nat) (s : RngState) (h : s.Valid) : (rngStep^[n] s).Valid := by
  induction n with
  | zero => exact h
  | succ n ih =>
    rw [Function.iterate_succ_apply']
    exact rngStep_valid _ ih

theorem clmulF_act (b : Nat) (f : Nat) :
    ∀ a, a ≤ f → ∀ s, act (clmulF f a b) s = act a (act b s) := by
  induction f with
  | zero =>
    intro a ha s
    have : a = 0 := by omega
    subst this
    simp [clmulF, act_zero]
  | succ f ih =>
    intro a ha s
    cases a with
    | zero => simp [clmulF, act_zero]
    | succ a =>
      rw [clmulF, act_xor, act_two_mul, ih ((a + 1) / 2) (by omega), act_unfold (a + 1) (act b s),
        act_rngStep b s]
      congr 1
      rcases Nat.mod_two_eq_zero_or_one (a + 1) with h | h
      · rw [h]
        simp [act_zero]
      · rw [h]
        simp

theorem redF_act (hann : Annihilates) (n : Nat) :
    ∀ c s, s.Valid → act (redF n c) s = act c s := by
  induction n with
  | zero =>
    intro c s _
    rfl
  | succ n ih =>
    intro c s hs
    rw [redF, ih _ s hs, act_xor]
    rcases Nat.mod_two_eq_zero_or_one (c >>> (96 + n)) with h | h
    · rw [h, Nat.zero_mul, act_zero, sx_zero]
    · rw [h, Nat.one_mul, Nat.shiftLeft_eq, act_shift, hann _ (iterate_valid n s hs), sx_zero]

theorem mulmod_act (hann : Annihilates) (a b : Nat) (s : RngState) (hs : s.Valid) :
    act (mulmod a b) s = act a (act b s) := by
  unfold mulmod
  rw [redF_act hann 96 _ s hs, clmulF_act b a a (le_refl a)]

theorem mulX_act (hann : Annihilates) (a : Nat) (s : RngState) (hs : s.Valid) :
    act (mulX a) s = act a (rngStep s) := by
  unfold mulX
  rw [redF_act hann 1 _ s hs, act_two_mul]

theorem powF_act (hann : Annihilates) (f : Nat) :
    ∀ e, e ≤ f → ∀ s : RngState, s.Valid → act (powF f e) s = rngStep^[e] s := by
  induction f with
  | zero =>
    intro e he s _
    have : e = 0 := by omega
    subst this
    exact act_one s
  | succ f ih =>
    intro e he s hs
    cases e with
    | zero => exact act_one s
    | succ e =>
      have hr := ih ((e + 1) / 2) (by omega)
      have hsq : ∀ t : RngState, t.Valid →
          act (mulmod (powF f ((e + 1) / 2)) (powF f ((e + 1) / 2))) t =
            rngStep^[2 * ((e + 1) / 2)] t := by
        intro t ht
        rw [mulmod_act hann _ _ t ht, hr t ht, hr _ (iterate_valid _ t ht),
          ← Function.iterate_add_apply]
        congr 1
        omega
      rw [powF, forceNat_eq, forceNat_eq]
      rcases Nat.mod_two_eq_zero_or_one (e + 1) with h | h
      · rw [if_neg (by omega), hsq s hs]
        congr 1
        omega
      · rw [if_pos h, mulX_act hann _ s hs, hsq _ (rngStep_valid s hs),
          ← Function.iterate_succ_apply]
        congr 1
        omega

theorem powmod_act (hann : Annihilates) (e : Nat) (s : RngState) (hs : s.Valid) :
    act (powmod e) s = rngStep^[e] s :=
  powF_act hann e e (le_refl e) s hs

theorem annF_eq (f : Nat) :
    ∀ p cur acc, p < 2 ^ f → annF f p cur acc = sx acc (act p cur) := by
  induction f with
  | zero =>
    intro p cur acc hp
    have : p = 0 := by simpa using hp
    subst this
    rw [annF, act_zero, sx_zero]
  | succ f ih =>
    intro p cur acc hp
    rw [annF, ih _ _ _ (by rw [pow_succ] at hp; omega), act_unfold p cur]
    split
    · rw [sx_assoc]
    · rw [zero_sx]

theorem two_pow_add_eq_xor (n r : Nat) (hr : r < 2 ^ n) : 2 ^ n + r = 2 ^ n ^^^ r := by
  have h := Nat.mul_add_lt_is_or hr 1
  rw [Nat.mul_one] at h
  rw [h]
  apply Nat.eq_of_testBit_eq
  intro i
  rw [Nat.testBit_or, Nat.testBit_xor, Nat.testBit_two_pow]
  by_cases hi : n = i
  · subst hi
    rw [Nat.testBit_lt_two_pow hr]
    simp
  · simp [hi]

theorem additive_zero_of_basis (g : Nat → RngState)
    (hadd : ∀ a b, g (a ^^^ b) = sx (g a) (g b)) (n : Nat)
    (hb : ∀ i, i < n → g (2 ^ i) = zeroState) : ∀ x, x < 2 ^ n → g x = zeroState := by
  have h0 : g 0 = zeroState := by
    have := hadd 0 0
    rw [sx_self, Nat.xor_self] at this
    exact this
  induction n with
  | zero =>
    intro x hx
    have : x = 0 := by simpa using hx
    rw [this]
    exact h0
  | succ n ih =>
    intro x hx
    by_cases hlt : x < 2 ^ n
    · exact ih (fun i hi => hb i (by omega)) x hlt
    · have hr : x - 2 ^ n < 2 ^ n := by
        rw [pow_succ] at hx
        omega
      have hx2 : x = 2 ^ n ^^^ (x - 2 ^ n) := by
        rw [← two_pow_add_eq_xor n _ hr]
        omega
      rw [hx2, hadd, hb n (by omega), ih (fun i hi => hb i (by omega)) _ hr, sx_self]

theorem annihilates : Annihilates := by
  have hb := basisAnnihilated_true
  unfold basisAnnihilated at hb
  rw [List.all_eq_true] at hb
  have hcp : charPoly < 2 ^ 97 := by decide
  have hbasis : ∀ i, i < 32 →
      act charPoly ⟨2 ^ i, 0, 0⟩ = zeroState ∧ act charPoly ⟨0, 2 ^ i, 0⟩ = zeroState ∧
        act charPoly ⟨0, 0, 2 ^ i⟩ = zeroState := by
    intro i hi
    have h := hb i (List.mem_range.mpr hi)
    simp only [Bool.and_eq_true, beq_iff_eq, annF_eq 97 _ _ _ hcp, zero_sx] at h
    exact ⟨h.1.1, h.1.2, h.2⟩
  have hx : ∀ x, x < 2 ^ 32 → act charPoly ⟨x, 0, 0⟩ = zeroState :=
    additive_zero_of_basis (fun x => act charPoly ⟨x, 0, 0⟩)
      (fun a b => by
        show act charPoly ⟨a ^^^ b, 0, 0⟩ = sx (act charPoly ⟨a, 0, 0⟩) (act charPoly ⟨b, 0, 0⟩)
        rw [← act_sx]
        simp [sx]) 32 (fun i hi => (hbasis i hi).1)
  have hy : ∀ x, x < 2 ^ 32 → act charPoly ⟨0, x, 0⟩ = zeroState :=
    additive_zero_of_basis (fun x => act charPoly ⟨0, x, 0⟩)
      (fun a b => by
        show act charPoly ⟨0, a ^^^ b, 0⟩ = sx (act charPoly ⟨0, a, 0⟩) (act charPoly ⟨0, b, 0⟩)
        rw [← act_sx]
        simp [sx]) 32 (fun i hi => (hbasis i hi).2.1)
  have hz : ∀ x, x < 2 ^ 32 → act charPoly ⟨0, 0, x⟩ = zeroState :=
    additive_zero_of_basis (fun x => act charPoly ⟨0, 0, x⟩)
      (fun a b => by
        show act charPoly ⟨0, 0, a ^^^ b⟩ = sx (act charPoly ⟨0, 0, a⟩) (act charPoly ⟨0, 0, b⟩)
        rw [← act_sx]
        simp [sx]) 32 (fun i hi => (hbasis i hi).2.2)
  intro s hs
  have hsplit : s = sx ⟨s.x, 0, 0⟩ (sx ⟨0, s.y, 0⟩ ⟨0, 0, s.z⟩) := by
    cases s
    simp [sx]
  rw [hsplit, act_sx, act_sx, hx _ hs.1, hy _ hs.2.1, hz _ hs.2.2, sx_self, sx_self]

theorem iterate_full (s : RngState) (hs : s.Valid) : rngStep^[2 ^ 96 - 1] s = s := by
  rw [← powmod_act annihilates _ s hs, powmod_full, act_one]

theorem no_fixed_of_inverse (m u : Nat) (hu : mulmod u (powmod m ^^^ 1) = 1) (s : RngState)
    (hs : s.Valid) (hfix : rngStep^[m] s = s) : s = zeroState := by
  have h1 : act (mulmod u (powmod m ^^^ 1)) s = s := by rw [hu, act_one]
  rw [mulmod_act annihilates _ _ s hs, act_xor, powmod_act annihilates _ s hs, hfix, act_one,
    sx_self, act_zeroState] at h1
  exact h1.symm

theorem inv_5 : mulmod 15825122819047559548817747502 (powmod ((2 ^ 96 - 1) / 5) ^^^ 1) = 1 := by
  decide!

theorem inv_7 : mulmod 22007822941125817295782355689 (powmod ((2 ^ 96 - 1) / 7) ^^^ 1) = 1 := by
  decide!

theorem inv_13 : mulmod 43994860400452190628375555720 (powmod ((2 ^ 96 - 1) / 13) ^^^ 1) = 1 := by
  decide!

theorem inv_17 : mulmod 1827923841174436235782412582 (powmod ((2 ^ 96 - 1) / 17) ^^^ 1) = 1 := by
  decide!

theorem inv_97 : mulmod 76915830689548147599743182399 (powmod ((2 ^ 96 - 1) / 97) ^^^ 1) = 1 := by
  decide!

theorem inv_193 : mulmod 38177713682377881768383756169 (powmod ((2 ^ 96 - 1) / 193) ^^^ 1) = 1 := by
  decide!

theorem inv_241 : mulmod 17790352829862008837242232092 (powmod ((2 ^ 96 - 1) / 241) ^^^ 1) = 1 := by
  decide!

theorem inv_257 : mulmod 16973591648545913610672693492 (powmod ((2 ^ 96 - 1) / 257) ^^^ 1) = 1 := by
  decide!

theorem inv_673 : mulmod 15290640273348493762579076752 (powmod ((2 ^ 96 - 1) / 673) ^^^ 1) = 1 := by
  decide!

theorem inv_65537 : mulmod 1848470284815664387129354862 (powmod ((2 ^ 96 - 1) / 65537) ^^^ 1) = 1 := by
  decide!

theorem inv_22253377 : mulmod 78035601573188615392813007761 (powmod ((2 ^ 96 - 1) / 22253377) ^^^ 1) = 1 := by
  decide!

theorem prime_dvd_full (q : Nat) (hq : q.Prime) (hd : q ∣ 2 ^ 96 - 1) :
    q = 3 ∨ q = 5 ∨ q = 7 ∨ q = 13 ∨ q = 17 ∨ q = 97 ∨ q = 193 ∨ q = 241 ∨ q = 257 ∨
      q = 673 ∨ q = 65537 ∨ q = 22253377 := by
  have hfac : 2 ^ 96 - 1 =
      3 * (3 * (5 * (7 * (13 * (17 * (97 * (193 * (241 * (257 * (673 *
        (65537 * 22253377))))))))))) := by norm_num
  rw [hfac] at hd
  have key : ∀ p : Nat, p.Prime → q ∣ p → q = p := fun p hp h =>
    (Nat.prime_dvd_prime_iff_eq hq hp).mp h
  have p3 : Nat.Prime 3 := by norm_num
  have p5 : Nat.Prime 5 := by norm_num
  have p7 : Nat.Prime 7 := by norm_num
  have p13 : Nat.Prime 13 := by norm_num
  have p17 : Nat.Prime 17 := by norm_num
  have p97 : Nat.Prime 97 := by norm_num
  have p193 : Nat.Prime 193 := by norm_num
  have p241 : Nat.Prime 241 := by norm_num
  have p257 : Nat.Prime 257 := by norm_num
  have p673 : Nat.Prime 673 := by norm_num
  have p65537 : Nat.Prime 65537 := by norm_num
  have p22253377 : Nat.Prime 22253377 := by norm_num
  rcases (Nat.Prime.dvd_mul hq).mp hd with h | hd
  · exact Or.inl (key 3 p3 h)
  rcases (Nat.Prime.dvd_mul hq).mp hd with h | hd
  · exact Or.inl (key 3 p3 h)
  rcases (Nat.Prime.dvd_mul hq).mp hd with h | hd
  · exact Or.inr (Or.inl (key 5 p5 h))
  rcases (Nat.Prime.dvd_mul hq).mp hd with h | hd
  · exact Or.inr (Or.inr (Or.inl (key 7 p7 h)))
  rcases (Nat.Prime.dvd_mul hq).mp hd with h | hd
  · exact Or.inr (Or.inr (Or.inr (Or.inl (key 13 p13 h))))
  rcases (Nat.Prime.dvd_mul hq).mp hd with h | hd
  · exact Or.inr (Or.inr (Or.inr (Or.inr (Or.inl (key 17 p17 h)))))
  rcases (Nat.Prime.dvd_mul hq).mp hd with h | hd
  · exact Or.inr (Or.inr (Or.inr (Or.inr (Or.inr (Or.inl (key 97 p97 h))))))
  rcases (Nat.Prime.dvd_mul hq).mp hd with h | hd
  · exact Or.inr (Or.inr (Or.inr (Or.inr (Or.inr (Or.inr (Or.inl (key 193 p193 h)))))))
  rcases (Nat.Prime.dvd_mul hq).mp hd with h | hd
  · exact Or.inr (Or.inr (Or.inr (Or.inr (Or.inr (Or.inr (Or.inr (Or.inl (key 241 p241 h))))))))
  rcases (Nat.Prime.dvd_mul hq).mp hd with h | hd
  · exact Or.inr (Or.inr (Or.inr (Or.inr (Or.inr (Or.inr (Or.inr (Or.inr
      (Or.inl (key 257 p257 h)))))))))
  rcases (Nat.Prime.dvd_mul hq).mp hd with h | hd
  · exact Or.inr (Or.inr (Or.inr (Or.inr (Or.inr (Or.inr (Or.inr (Or.inr
      (Or.inr (Or.inl (key 673 p673 h))))))))))
  rcases (Nat.Prime.dvd_mul hq).mp hd with h | hd
  · exact Or.inr (Or.inr (Or.inr (Or.inr (Or.inr (Or.inr (Or.inr (Or.inr
      (Or.inr (Or.inr (Or.inl (key 65537 p65537 h)))))))))))
  · exact Or.inr (Or.inr (Or.inr (Or.inr (Or.inr (Or.inr (Or.inr (Or.inr
      (Or.inr (Or.inr (Or.inr (key 22253377 p22253377 hd)))))))))))

theorem no_fixed_maximal_divisor (q : Nat) (hq : q.Prime) (hd : q ∣ 2 ^ 96 - 1) (s : RngState)
    (hs : s.Valid) (hfix : rngStep^[(2 ^ 96 - 1) / q] s = s) : s = zeroState := by
  rcases prime_dvd_full q hq hd with h | h | h | h | h | h | h | h | h | h | h | h <;> subst h
  · exact no_fixed_of_inverse _ _ inv_3 s hs hfix
  · exact no_fixed_of_inverse _ _ inv_5 s hs hfix
  · exact no_fixed_of_inverse _ _ inv_7 s hs hfix
  · exact no_fixed_of_inverse _ _ inv_13 s hs hfix
  · exact no_fixed_of_inverse _ _ inv_17 s hs hfix
  · exact no_fixed_of_inverse _ _ inv_97 s hs hfix
  · exact no_fixed_of_inverse _ _ inv_193 s hs hfix
  · exact no_fixed_of_inverse _ _ inv_241 s hs hfix
  · exact no_fixed_of_inverse _ _ inv_257 s hs hfix
  · exact no_fixed_of_inverse _ _ inv_673 s hs hfix
  · exact no_fixed_of_inverse _ _ inv_65537 s hs hfix
  · exact no_fixed_of_inverse _ _ inv_22253377 s hs hfix

theorem no_short_period (s : RngState) (hs : s.Valid) (hne : s ≠ zeroState) (k : Nat)
    (hk0 : 0 < k) (hk : k < 2 ^ 96 - 1) : rngStep^[k] s ≠ s := by
  intro hfix
  have hperk : Function.IsPeriodicPt rngStep k s := hfix
  have hperN : Function.IsPeriodicPt rngStep (2 ^ 96 - 1) s := iterate_full s hs
  have hg := hperk.gcd hperN
  have hgN : Nat.gcd k (2 ^ 96 - 1) ∣ 2 ^ 96 - 1 := Nat.gcd_dvd_right _ _
  have hgk : Nat.gcd k (2 ^ 96 - 1) ≤ k := Nat.gcd_le_left _ hk0
  generalize Nat.gcd k (2 ^ 96 - 1) = g at hg hgN hgk
  obtain ⟨c, hc⟩ := hgN
  have hc1 : c ≠ 1 := by
    intro h1
    rw [h1, Nat.mul_one] at hc
    omega
  obtain ⟨q, hq, hqc⟩ := Nat.exists_prime_and_dvd hc1
  obtain ⟨d, hdq⟩ := hqc
  have hqN : q ∣ 2 ^ 96 - 1 := ⟨g * d, by rw [hc, hdq]; ring⟩
  have hdiv : (2 ^ 96 - 1) / q = g * d := by
    apply Nat.div_eq_of_eq_mul_right hq.pos
    rw [hc, hdq]
    ring
  have hper : Function.IsPeriodicPt rngStep ((2 ^ 96 - 1) / q) s :=
    hg.trans_dvd ⟨d, hdiv⟩
  exact hne (no_fixed_maximal_divisor q hq hqN s hs hper)

theorem encode_inj (s t : RngState) (hs : s.Valid) (ht : t.Valid) (h : encode s = encode t) :
    s = t := by
  obtain ⟨sx, sy, sz⟩ := s
  obtain ⟨tx, ty, tz⟩ := t
  unfold RngState.Valid at hs ht
  unfold encode at h
  simp only at hs ht h
  norm_num at hs ht h
  have h1 : sx = tx := by omega
  have h2 : sy = ty := by omega
  have h3 : sz = tz := by omega
  rw [h1, h2, h3]

theorem encode_lt (s : RngState) (hs : s.Valid) : encode s < 2 ^ 96 := by
  obtain ⟨sx, sy, sz⟩ := s
  unfold RngState.Valid at hs
  unfold encode
  simp only at hs ⊢
  norm_num at hs ⊢
  omega

theorem encode_pos (s : RngState) (hne : s ≠ zeroState) : 0 < encode s := by
  obtain ⟨sx, sy, sz⟩ := s
  unfold encode
  simp only
  by_contra h
  have h0 : sx + 2 ^ 32 * sy + 2 ^ 64 * sz = 0 := by omega
  have hx : sx = 0 := by omega
  have hy : sy = 0 := by
    norm_num at h0
    omega
  have hz : sz = 0 := by
    norm_num at h0
    omega
  exact hne (by rw [hx, hy, hz]; rfl)

theorem seed_valid : seed.Valid := ⟨by decide, by decide, by decide⟩

theorem seed_ne_zero : seed ≠ zeroState := by decide

theorem iterate_zeroState (n : Nat) : rngStep^[n] zeroState = zeroState := by
  induction n with
  | zero => rfl
  | succ n ih => rw [Function.iterate_succ_apply', ih, rngStep_zero]

theorem orbit_ne_zero (s : RngState) (hs : s.Valid) (hne : s ≠ zeroState) (k : Nat)
    (hk : k < 2 ^ 96 - 1) : rngStep^[k] s ≠ zeroState := by
  intro h
  have h1 : rngStep^[(2 ^ 96 - 1 - k) + k] s = s := by
    rw [Nat.sub_add_cancel (le_of_lt hk)]
    exact iterate_full s hs
  rw [Function.iterate_add_apply, h, iterate_zeroState] at h1
  exact hne h1.symm

theorem orbit_injective (s : RngState) (hs : s.Valid) (hne : s ≠ zeroState) (i j : Nat)
    (hi : i < 2 ^ 96 - 1) (hj : j < 2 ^ 96 - 1) (h : rngStep^[i] s = rngStep^[j] s) : i = j := by
  have key : ∀ a b : Nat, a < b → b < 2 ^ 96 - 1 → rngStep^[a] s = rngStep^[b] s → False := by
    intro a b hab hb hEq
    have h1 : rngStep^[(2 ^ 96 - 1 - b) + a] s = s := by
      rw [Function.iterate_add_apply, hEq, ← Function.iterate_add_apply,
        Nat.sub_add_cancel (le_of_lt hb)]
      exact iterate_full s hs
    exact no_short_period s hs hne _ (by omega) (by omega) h1
  rcases Nat.lt_trichotomy i j with hlt | heq | hgt
  · exact (key i j hlt hj h).elim
  · exact heq
  · exact (key j i hgt hi h.symm).elim

theorem orbit_covers (s t : RngState) (hs : s.Valid) (hne : s ≠ zeroState) (ht : t.Valid)
    (htne : t ≠ zeroState) : ∃ k, k < 2 ^ 96 - 1 ∧ rngStep^[k] s = t := by
  have hinj : Set.InjOn (fun k => encode (rngStep^[k] s) - 1)
      (Finset.range (2 ^ 96 - 1) : Set Nat) := by
    intro i hi j hj hEq
    rw [Finset.coe_range, Set.mem_Iio] at hi hj
    have hpi := encode_pos _ (orbit_ne_zero s hs hne i hi)
    have hpj := encode_pos _ (orbit_ne_zero s hs hne j hj)
    have hEq2 : encode (rngStep^[i] s) = encode (rngStep^[j] s) := by
      simp only at hEq
      omega
    exact orbit_injective s hs hne i j hi hj
      (encode_inj _ _ (iterate_valid i s hs) (iterate_valid j s hs) hEq2)
  have hsub : (Finset.range (2 ^ 96 - 1)).image (fun k => encode (rngStep^[k] s) - 1) ⊆
      Finset.range (2 ^ 96 - 1) := by
    intro v hv
    rw [Finset.mem_image] at hv
    obtain ⟨k, _, rfl⟩ := hv
    rw [Finset.mem_range]
    have := encode_lt _ (iterate_valid k s hs)
    have h96 : (2 : Nat) ^ 96 - 1 + 1 = 2 ^ 96 := by norm_num
    omega
  have hcard : (Finset.range (2 ^ 96 - 1)).card ≤
      ((Finset.range (2 ^ 96 - 1)).image (fun k => encode (rngStep^[k] s) - 1)).card := by
    rw [Finset.card_image_of_injOn hinj]
  have himg := Finset.eq_of_subset_of_card_le hsub hcard
  have hmem : encode t - 1 ∈ Finset.range (2 ^ 96 - 1) := by
    rw [Finset.mem_range]
    have := encode_lt t ht
    have := encode_pos t htne
    omega
  rw [← himg, Finset.mem_image] at hmem
  obtain ⟨k, hk, hEq⟩ := hmem
  rw [Finset.mem_range] at hk
  refine ⟨k, hk, ?_⟩
  have hp1 := encode_pos _ (orbit_ne_zero s hs hne k hk)
  have hp2 := encode_pos t htne
  exact encode_inj _ _ (iterate_valid k s hs) ht (by omega)

/-- C7: on three 32-bit words the transition `(x, y, z) -> (y, z, m(x) xor y xor z)` of
`xorshf96` has period `2^96 - 1`: every state other than the all-zero state returns to itself
after `2^96 - 1` applications and after no smaller positive number, and the generator started
from the seed constants reaches every such state within `2^96 - 1` steps. -/
theorem xorshf96_period (s : RngState) (hs : s.Valid) (hne : s ≠ zeroState) :
    rngStep s = ⟨s.y, s.z, specMix s.x ^^^ s.y ^^^ s.z⟩ ∧
    rngStep^[2 ^ 96 - 1] s = s ∧
    (∀ k, 0 < k → k < 2 ^ 96 - 1 → rngStep^[k] s ≠ s) ∧
    (∃ k, k < 2 ^ 96 - 1 ∧ rngStep^[k] seed = s) := by
  refine ⟨?_, iterate_full s hs, fun k hk0 hk => no_short_period s hs hne k hk0 hk,
    orbit_covers seed s seed_valid seed_ne_zero hs hne⟩
  rw [specMix_eq s.x hs.1]
  rfl

/-- Witness for `xorshf96_period` at the seed state. -/
theorem xorshf96_period_witness :
    seed.Valid ∧ seed ≠ zeroState ∧
    rngStep seed = ⟨seed.y, seed.z, specMix seed.x ^^^ seed.y ^^^ seed.z⟩ ∧
    rngStep^[2 ^ 96 - 1] seed = seed ∧
    (∀ k, 0 < k → k < 2 ^ 96 - 1 → rngStep^[k] seed ≠ seed) ∧
    (∃ k, k < 2 ^ 96 - 1 ∧ rngStep^[k] seed = seed) :=
  ⟨seed_valid, seed_ne_zero, xorshf96_period seed seed_valid seed_ne_zero⟩

theorem testBit_mask_const (n b : Nat) (hn : n < 8) (hb : b < 4) :
    (0x11111111 : Nat).testBit (4 * n + b) = decide (b = 0) := by
  interval_cases n <;> interval_cases b <;> decide

theorem testBit_randomMask (r n b : Nat) (hn : n < 8) (hb : b < 4) :
    (randomMask r).testBit (4 * n + b) =
      (decide (b = 0) && (r.testBit (4 * n) && r.testBit (4 * n + 1))) := by
  unfold randomMask
  rw [Nat.testBit_and, Nat.testBit_and, Nat.testBit_shiftRight, testBit_mask_const n b hn hb]
  by_cases h : b = 0
  · subst h
    simp [Nat.add_comm, Bool.and_comm]
  · simp [h]

/-- C5: for every `r` (in particular every 32-bit `r`) the stored word `(r >> 1) & r & 0x11111111` is canonical: each of
its eight 4-bit fields is 0 or 1 (bits 1..3 of every field are clear), and field `n` is 1
exactly when bits `4n` and `4n+1` of `r` are both set. -/
theorem randomMask_canonical (r n : Nat) (hn : n < 8) :
    (cellField (randomMask r) n = 0 ∨ cellField (randomMask r) n = 1) ∧
    (∀ b, 1 ≤ b → b ≤ 3 → (randomMask r).testBit (4 * n + b) = false) ∧
    (cellField (randomMask r) n = 1 ↔ (r.testBit (4 * n) = true ∧ r.testBit (4 * n + 1) = true)) ∧
    randomMask r < 2 ^ 32 := by
  have hfield : cellField (randomMask r) n =
      if (r.testBit (4 * n) && r.testBit (4 * n + 1)) = true then 1 else 0 := by
    apply Nat.eq_of_testBit_eq
    intro i
    unfold cellField
    rw [show (16 : Nat) = 2 ^ 4 by norm_num, Nat.testBit_mod_two_pow, Nat.testBit_shiftRight]
    by_cases hi : i < 4
    · rw [testBit_randomMask r n i hn hi]
      by_cases h0 : i = 0
      · subst h0
        cases r.testBit (4 * n) <;> cases r.testBit (4 * n + 1) <;> simp
      · have : ∀ k : Nat, k ≤ 1 → k.testBit i = false := by
          intro k hk
          apply Nat.testBit_lt_two_pow
          calc k < 2 := by omega
            _ ≤ 2 ^ i := by
              have : 1 ≤ i := by omega
              calc 2 = 2 ^ 1 := by norm_num
                _ ≤ 2 ^ i := Nat.pow_le_pow_right (by norm_num) this
        simp only [hi, h0, decide_True, decide_False, Bool.true_and, Bool.false_and]
        split <;> exact (this _ (by omega)).symm
    · have : ∀ k : Nat, k ≤ 1 → k.testBit i = false := by
        intro k hk
        apply Nat.testBit_lt_two_pow
        calc k < 2 ^ 4 := by omega
          _ ≤ 2 ^ i := Nat.pow_le_pow_right (by norm_num) (by omega)
      simp only [hi, decide_False, Bool.false_and]
      split <;> exact (this _ (by omega)).symm
  refine ⟨?_, ?_, ?_, ?_⟩
  · rw [hfield]
    split <;> simp
  · intro b hb1 hb3
    rw [testBit_randomMask r n b hn (by omega)]
    simp [show b ≠ 0 by omega]
  · rw [hfield]
    cases r.testBit (4 * n) <;> cases r.testBit (4 * n + 1) <;> simp
  · unfold randomMask
    exact Nat.and_lt_two_pow _ (by norm_num)

/-- Witness for `randomMask_canonical` at `r = 0x33`, field 1. -/
theorem randomMask_canonical_witness :
    (cellField (randomMask 0x33) 1 = 0 ∨ cellField (randomMask 0x33) 1 = 1) ∧
    (∀ b, 1 ≤ b → b ≤ 3 → (randomMask 0x33).testBit (4 * 1 + b) = false) ∧
    (cellField (randomMask 0x33) 1 = 1 ↔
      ((0x33 : Nat).testBit (4 * 1) = true ∧ (0x33 : Nat).testBit (4 * 1 + 1) = true)) ∧
    randomMask 0x33 < 2 ^ 32 :=
  randomMask_canonical 0x33 1 (by norm_num)

theorem color_values : colorGreen = 672 ∧ colorYellow = 693 ∧ colorRed = 21 := by
  refine ⟨?_, ?_, ?_⟩ <;> decide

/-- C9 as stated fails at `c = 84268`: the count is under 30% of the budget
(`10 * c < 3 * 280896`) but the indicator is yellow, not green. -/
theorem indicatorColor_band_counterexample :
    10 * 84268 < 3 * VBLANK_NUM_CYCLES ∧ indicatorColor 84268 ≠ colorGreen ∧
      indicatorColor 84268 = colorYellow := by
  refine ⟨?_, ?_, ?_⟩ <;> decide

/-- C9 (amended): the indicator is green exactly when `c < 84268 = ⌊3 * 280896 / 10⌋`, yellow
exactly when `c` is not below that threshold but `10 * c < 5 * 280896`, and red otherwise. -/
theorem indicatorColor_bands (c : Nat) :
    3 * VBLANK_NUM_CYCLES / 10 = 84268 ∧
    (indicatorColor c = colorGreen ↔ c < 84268) ∧
    (indicatorColor c = colorYellow ↔ (¬ c < 84268 ∧ 10 * c < 5 * VBLANK_NUM_CYCLES)) ∧
    (indicatorColor c = colorRed ↔ ¬ 10 * c < 5 * VBLANK_NUM_CYCLES) := by
  obtain ⟨hg, hy, hr⟩ := color_values
  have h3 : 3 * VBLANK_NUM_CYCLES / 10 = 84268 := by decide
  have h5 : 5 * VBLANK_NUM_CYCLES / 10 = 140448 := by decide
  have hV : VBLANK_NUM_CYCLES = 280896 := rfl
  have hcol : indicatorColor c =
      if c < 84268 then 672 else if c < 140448 then 693 else 21 := by
    unfold indicatorColor
    rw [h3, h5]
    change (if c < 84268 then colorGreen else if c < 140448 then colorYellow else colorRed) = _
    rw [hg, hy, hr]
  rw [hcol, hg, hy, hr, hV]
  refine ⟨h3, ?_, ?_, ?_⟩
  · split
    · simp [*]
    · split <;> simp [*]
  · split
    · simp [*]
    · split
      · simp only [true_iff]; omega
      · simp only [false_iff, Nat.reduceEqDiff]; omega
  · split
    · simp only [Nat.reduceEqDiff, false_iff]; omega
    · split
      · simp only [Nat.reduceEqDiff, false_iff]; omega
      · simp only [true_iff]; omega

theorem sub32_eq_sub (a b : Nat) (ha : a < 2 ^ 32) (hb : b % 2 ^ 32 ≤ a) :
    sub32 a (b % 2 ^ 32) = a - b % 2 ^ 32 := by
  unfold sub32
  rw [Nat.mod_mod]
  omega

/-- C10: for `c < 2 ^ 24` the percentage digits satisfy `digits[1] ≤ 9`, `digits[2] ≤ 9` and
`100 * digits[0] + 10 * digits[1] + digits[2] = ⌊100 * ⌊256 c / 280896⌋ / 256⌋`; this value
is at most the true percentage `⌊100 c / 280896⌋` and at least one below it. -/
theorem percentDigits_value (c : Nat) (hc : c < 2 ^ 24) :
    (percentDigits c).2.1 ≤ 9 ∧ (percentDigits c).2.2 ≤ 9 ∧
    100 * (percentDigits c).1 + 10 * (percentDigits c).2.1 + (percentDigits c).2.2 =
      100 * (256 * c / 280896) / 256 ∧
    100 * c / 280896 - 1 ≤
      100 * (percentDigits c).1 + 10 * (percentDigits c).2.1 + (percentDigits c).2.2 ∧
    100 * (percentDigits c).1 + 10 * (percentDigits c).2.1 + (percentDigits c).2.2 ≤
      100 * c / 280896 := by
  have hc2 : c < 16777216 := by norm_num at hc; exact hc
  have hd : percentDigits c =
      (256 * c / 280896 / 256, (256 * c / 280896 % 256) * 10 / 256,
        ((256 * c / 280896 % 256) * 10 % 256) * 10 / 256) := by
    have e1 : (c <<< 8) % 2 ^ 32 / VBLANK_NUM_CYCLES = 256 * c / 280896 := by
      rw [Nat.shiftLeft_eq, VBLANK_NUM_CYCLES, Nat.mod_eq_of_lt (by omega), Nat.mul_comm]
    have e2 : ∀ v, v < 2 ^ 24 →
        (sub32 v (((v >>> 8) <<< 8) % 2 ^ 32) * 10) % 2 ^ 32 = (v % 256) * 10 := by
      intro v hv
      have hv2 : v < 16777216 := by norm_num at hv; exact hv
      rw [sub32_eq_sub _ _ (by omega) (by
        rw [Nat.shiftLeft_eq, Nat.shiftRight_eq_div_pow]; omega)]
      rw [Nat.shiftLeft_eq, Nat.shiftRight_eq_div_pow]
      omega
    unfold percentDigits
    simp only []
    rw [e1, e2 _ (by omega), e2 _ (by omega)]
    simp only [Nat.shiftRight_eq_div_pow]
  rw [hd]
  simp only []
  omega

/-- Witness for `percentDigits_value` at `c = 100000` (35%). -/
theorem percentDigits_value_witness :
    (100000 : Nat) < 2 ^ 24 ∧ (percentDigits 100000).2.1 ≤ 9 ∧ (percentDigits 100000).2.2 ≤ 9 ∧
    100 * (percentDigits 100000).1 + 10 * (percentDigits 100000).2.1 +
        (percentDigits 100000).2.2 = 100 * (256 * 100000 / 280896) / 256 ∧
    100 * 100000 / 280896 - 1 ≤
      100 * (percentDigits 100000).1 + 10 * (percentDigits 100000).2.1 +
        (percentDigits 100000).2.2 ∧
    100 * (percentDigits 100000).1 + 10 * (percentDigits 100000).2.1 +
        (percentDigits 100000).2.2 ≤ 100 * 100000 / 280896 :=
  ⟨by norm_num, percentDigits_value 100000 (by norm_num)⟩

/-! ### The kernel -/

theorem testBit_cellField (w n j : Nat) :
    (cellField w n).testBit j = (decide (j < 4) && w.testBit (4 * n + j)) := by
  unfold cellField
  rw [show (16 : Nat) = 2 ^ 4 by norm_num, Nat.testBit_mod_two_pow, Nat.testBit_shiftRight]

theorem cellField_lt (w n : Nat) : cellField w n < 16 := by
  unfold cellField
  omega

theorem eq_of_testBit_lt4 (a b : Nat) (ha : a < 16) (hb : b < 16)
    (h : ∀ j, j < 4 → a.testBit j = b.testBit j) : a = b := by
  apply Nat.eq_of_testBit_eq
  intro j
  by_cases hj : j < 4
  · exact h j hj
  · have h16 : (16 : Nat) ≤ 2 ^ j := by
      calc (16 : Nat) = 2 ^ 4 := by norm_num
        _ ≤ 2 ^ j := Nat.pow_le_pow_right (by norm_num) (by omega)
    rw [Nat.testBit_lt_two_pow (lt_of_lt_of_le ha h16),
      Nat.testBit_lt_two_pow (lt_of_lt_of_le hb h16)]

theorem cellField_cellMask (w n : Nat) (hn : n < 8) :
    cellField (cellMask w) n = cellField w n % 2 := by
  apply eq_of_testBit_lt4 _ _ (cellField_lt _ _) (by omega)
  intro j hj
  rw [testBit_cellField, show cellField w n % 2 = cellField w n % 2 ^ 1 by norm_num,
    Nat.testBit_mod_two_pow, testBit_cellField]
  unfold cellMask
  rw [Nat.testBit_and, testBit_mask_const n j hn hj]
  by_cases h0 : j = 0
  · subst h0
    simp
  · have : ¬ j < 1 := by omega
    simp [h0, this]

theorem cellMask_fieldsLe (w : Nat) : FieldsLe (cellMask w) 1 := by
  refine ⟨?_, ?_⟩
  · unfold cellMask
    exact Nat.and_lt_two_pow _ (by norm_num)
  · intro k hk
    rw [cellField_cellMask w k hk]
    omega

theorem fieldsLe_zero : FieldsLe 0 1 := by
  refine ⟨by norm_num, ?_⟩
  intro k _
  simp [cellField]

theorem fromLeft_eq (cur prev : Nat) (hp : prev < 2 ^ 32) :
    fromLeft cur prev = 16 * (cur % 2 ^ 28) + prev / 2 ^ 28 := by
  unfold fromLeft
  have h1 : (cur <<< 4) % 2 ^ 32 = 2 ^ 4 * (cur % 2 ^ 28) := by
    rw [Nat.shiftLeft_eq, Nat.mul_comm, show (2 : Nat) ^ 32 = 2 ^ 4 * 2 ^ 28 by norm_num,
      Nat.mul_mod_mul_left]
  have h2 : prev >>> 28 < 2 ^ 4 := by
    rw [Nat.shiftRight_eq_div_pow]
    norm_num at hp ⊢
    omega
  rw [h1, ← Nat.mul_add_lt_is_or h2, Nat.shiftRight_eq_div_pow]

theorem fromRight_eq (cur next : Nat) (hc : cur < 2 ^ 32) :
    fromRight cur next = cur / 16 + 2 ^ 28 * (next % 16) := by
  unfold fromRight
  have h1 : (next <<< 28) % 2 ^ 32 = 2 ^ 28 * (next % 2 ^ 4) := by
    rw [Nat.shiftLeft_eq, Nat.mul_comm, show (2 : Nat) ^ 32 = 2 ^ 28 * 2 ^ 4 by norm_num,
      Nat.mul_mod_mul_left]
  have h2 : cur >>> 4 < 2 ^ 28 := by
    rw [Nat.shiftRight_eq_div_pow]
    norm_num at hc ⊢
    omega
  rw [h1, Nat.or_comm, ← Nat.mul_add_lt_is_or h2, Nat.shiftRight_eq_div_pow]
  norm_num
  omega

theorem cellField_eq (w n : Nat) : cellField w n = w / 16 ^ n % 16 := by
  unfold cellField
  rw [Nat.shiftRight_eq_div_pow, pow_mul]
  norm_num

theorem low_add_lt (a b n : Nat) (h : ∀ k, k < n → cellField a k + cellField b k ≤ 15) :
    a % 16 ^ n + b % 16 ^ n < 16 ^ n := by
  induction n with
  | zero => simp [Nat.mod_one]
  | succ n ih =>
    have ih2 := ih (fun k hk => h k (Nat.lt_succ_of_lt hk))
    have hn := h n (Nat.lt_succ_self n)
    rw [cellField_eq, cellField_eq] at hn
    rw [Nat.mod_pow_succ, Nat.mod_pow_succ, pow_succ]
    have hm : 16 ^ n * (a / 16 ^ n % 16) + 16 ^ n * (b / 16 ^ n % 16) ≤ 16 ^ n * 15 := by
      rw [← Nat.mul_add]
      exact Nat.mul_le_mul_left _ hn
    omega

theorem cellField_add (a b n : Nat) (h : ∀ k, k ≤ n → cellField a k + cellField b k ≤ 15) :
    cellField (a + b) n = cellField a n + cellField b n := by
  have hlow := low_add_lt a b n (fun k hk => h k (le_of_lt hk))
  have hn := h n (le_refl n)
  have hP : 0 < 16 ^ n := Nat.pow_pos (by norm_num)
  have hdiv : (a + b) / 16 ^ n = a / 16 ^ n + b / 16 ^ n := by
    have e : a + b = (a % 16 ^ n + b % 16 ^ n) + 16 ^ n * (a / 16 ^ n + b / 16 ^ n) := by
      have ea := Nat.mod_add_div a (16 ^ n)
      have eb := Nat.mod_add_div b (16 ^ n)
      rw [Nat.mul_add]
      omega
    rw [e, Nat.add_mul_div_left _ _ hP, Nat.div_eq_of_lt hlow, Nat.zero_add]
  rw [cellField_eq, cellField_eq, cellField_eq] at *
  rw [hdiv]
  omega

theorem fieldsLe_add (a b ca cb : Nat) (ha : FieldsLe a ca) (hb : FieldsLe b cb)
    (hc : ca + cb ≤ 15) :
    FieldsLe (a + b) (ca + cb) ∧
      ∀ n, n < 8 → cellField (a + b) n = cellField a n + cellField b n := by
  obtain ⟨ha32, haf⟩ := ha
  obtain ⟨hb32, hbf⟩ := hb
  have hle : ∀ k, k < 8 → cellField a k + cellField b k ≤ 15 := fun k hk =>
    le_trans (Nat.add_le_add (haf k hk) (hbf k hk)) hc
  have hsum : ∀ n, n < 8 → cellField (a + b) n = cellField a n + cellField b n :=
    fun n hn => cellField_add a b n (fun k hk => hle k (by omega))
  refine ⟨⟨?_, ?_⟩, hsum⟩
  · have h := low_add_lt a b 8 hle
    rw [show (16 : Nat) ^ 8 = 2 ^ 32 by norm_num, Nat.mod_eq_of_lt ha32,
      Nat.mod_eq_of_lt hb32] at h
    exact h
  · intro k hk
    rw [hsum k hk]
    exact Nat.add_le_add (haf k hk) (hbf k hk)

theorem cellField_fromLeft (cur prev n : Nat) (hp : prev < 2 ^ 32) (hn : n < 8) :
    cellField (fromLeft cur prev) n =
      if n = 0 then cellField prev 7 else cellField cur (n - 1) := by
  rw [fromLeft_eq cur prev hp]
  simp only [cellField_eq]
  norm_num at hp
  interval_cases n <;> norm_num <;> omega

theorem cellField_fromRight (cur next n : Nat) (hc : cur < 2 ^ 32) (hn : n < 8) :
    cellField (fromRight cur next) n =
      if n = 7 then cellField next 0 else cellField cur (n + 1) := by
  rw [fromRight_eq cur next hc]
  simp only [cellField_eq]
  norm_num at hc
  interval_cases n <;> norm_num <;> omega

theorem fromLeft_fieldsLe (cur prev : Nat) (hc : FieldsLe cur 1) (hp : FieldsLe prev 1) :
    FieldsLe (fromLeft cur prev) 1 := by
  refine ⟨?_, ?_⟩
  · rw [fromLeft_eq cur prev hp.1]
    have := hp.1
    norm_num at this ⊢
    omega
  · intro k hk
    rw [cellField_fromLeft cur prev k hp.1 hk]
    split
    · exact hp.2 7 (by norm_num)
    · exact hc.2 (k - 1) (by omega)

theorem fromRight_fieldsLe (cur next : Nat) (hc : FieldsLe cur 1) (hx : FieldsLe next 1) :
    FieldsLe (fromRight cur next) 1 := by
  refine ⟨?_, ?_⟩
  · rw [fromRight_eq cur next hc.1]
    have := hc.1
    norm_num at this ⊢
    omega
  · intro k hk
    rw [cellField_fromRight cur next k hc.1 hk]
    split
    · exact hx.2 0 (by norm_num)
    · exact hc.2 (k + 1) (by omega)

theorem testBit_allOnes (j : Nat) (hj : j < 32) : (0xFFFFFFFF : Nat).testBit j = true := by
  rw [show (0xFFFFFFFF : Nat) = 2 ^ 32 - 1 by norm_num, Nat.testBit_two_pow_sub_one]
  simp [hj]

theorem cellField_lifeSelect (sums cur n k c : Nat) (hn : n < 8)
    (hk : cellField sums n = k) (hk8 : k ≤ 8) (hc : cellField cur n = c) (hc1 : c ≤ 1) :
    cellField (lifeSelect sums cur) n = if k = 3 ∨ (k = 2 ∧ c = 1) then 1 else 0 := by
  have hbit : ∀ j, j < 4 → (sums ||| cur).testBit (4 * n + j) = (k ||| c).testBit j := by
    intro j hj
    rw [Nat.testBit_or, Nat.testBit_or, ← hk, ← hc, testBit_cellField, testBit_cellField]
    simp [hj]
  apply eq_of_testBit_lt4 _ _ (cellField_lt _ _) (by split <;> norm_num)
  intro j hj
  rw [testBit_cellField]
  unfold lifeSelect
  simp only [Nat.testBit_and, Nat.testBit_xor, Nat.testBit_shiftRight,
    testBit_mask_const n j hn hj]
  by_cases h0 : j = 0
  · subst h0
    have e1 : 1 + (4 * n + 0) = 4 * n + 1 := by omega
    have e2 : 2 + (4 * n + 0) = 4 * n + 2 := by omega
    have e3 : 3 + (4 * n + 0) = 4 * n + 3 := by omega
    rw [e1, e2, e3, hbit 0 (by norm_num), hbit 1 (by norm_num), hbit 2 (by norm_num),
      hbit 3 (by norm_num), testBit_allOnes _ (by omega)]
    interval_cases k <;> interval_cases c <;> decide
  · have hz : ∀ m : Nat, m ≤ 1 → m.testBit j = false := by
      intro m hm
      apply Nat.testBit_lt_two_pow
      calc m < 2 ^ 1 := by omega
        _ ≤ 2 ^ j := Nat.pow_le_pow_right (by norm_num) (by omega)
    simp only [hj, h0, decide_True, decide_False, Bool.and_false, Bool.true_and]
    split <;> exact (hz _ (by omega)).symm

theorem cellAlive_in (mem : Nat → Nat) (p : Nat) (X Y : Int) (c m a : Nat)
    (hX : X = 8 * (c : Int) + m) (hm : m < 8) (hc : c < 30) (hY : -8 ≤ Y ∧ Y < 168)
    (ha : (a : Int) = p + 176 * c + Y) :
    (cellAlive mem p X Y).toNat = cellField (mem a) m % 2 := by
  have e1 : ((p : Int) + 176 * (X / 8) + Y).toNat = a := by omega
  have e2 : (X % 8).toNat = m := by omega
  unfold cellAlive
  rw [if_pos ⟨by omega, by omega, hY.1, hY.2⟩, e1, e2]
  rcases Nat.mod_two_eq_zero_or_one (cellField (mem a) m) with h | h <;> simp [h]

theorem cellAlive_out (mem : Nat → Nat) (p : Nat) (X Y : Int) (hX : X < 0 ∨ 240 ≤ X) :
    cellAlive mem p X Y = false := by
  unfold cellAlive
  rw [if_neg (by omega)]

theorem leftWord_fieldsLe (mem : Nat → Nat) (i a : Nat) : FieldsLe (leftWord mem i a) 1 := by
  unfold leftWord
  split
  · exact cellMask_fieldsLe _
  · exact fieldsLe_zero

theorem rightWord_fieldsLe (mem : Nat → Nat) (i a : Nat) : FieldsLe (rightWord mem i a) 1 := by
  unfold rightWord
  split
  · exact cellMask_fieldsLe _
  · exact fieldsLe_zero

theorem row_fields (mem : Nat → Nat) (p i n a : Nat) (X Y : Int) (hp : 8 ≤ p) (hi : i < 30)
    (hn : n < 8) (hX : X = 8 * (i : Int) + n) (hY : -1 ≤ Y ∧ Y ≤ 160)
    (ha : (a : Int) = p + 176 * i + Y) :
    cellField (fromLeft (cellMask (mem a)) (leftWord mem i a)) n =
        (cellAlive mem p (X - 1) Y).toNat ∧
      cellField (cellMask (mem a)) n = (cellAlive mem p X Y).toNat ∧
      cellField (fromRight (cellMask (mem a)) (rightWord mem i a)) n =
        (cellAlive mem p (X + 1) Y).toNat := by
  have hY8 : -8 ≤ Y ∧ Y < 168 := ⟨by omega, by omega⟩
  refine ⟨?_, ?_, ?_⟩
  · rw [cellField_fromLeft _ _ n (leftWord_fieldsLe mem i a).1 hn]
    by_cases h0 : n = 0
    · rw [if_pos h0]
      unfold leftWord
      by_cases hi0 : 0 < i
      · rw [if_pos hi0, cellField_cellMask _ 7 (by norm_num)]
        exact (cellAlive_in mem p (X - 1) Y (i - 1) 7 (a - 176) (by omega) (by norm_num)
          (by omega) hY8 (by omega)).symm
      · rw [if_neg hi0, cellAlive_out mem p (X - 1) Y (by omega)]
        simp [cellField]
    · rw [if_neg h0, cellField_cellMask _ (n - 1) (by omega)]
      exact (cellAlive_in mem p (X - 1) Y i (n - 1) a (by omega) (by omega) hi hY8 ha).symm
  · rw [cellField_cellMask _ n hn]
    exact (cellAlive_in mem p X Y i n a hX hn hi hY8 ha).symm
  · rw [cellField_fromRight _ _ n (cellMask_fieldsLe _).1 hn]
    by_cases h7 : n = 7
    · rw [if_pos h7]
      unfold rightWord
      by_cases hi29 : i + 1 < 30
      · rw [if_pos hi29, cellField_cellMask _ 0 (by norm_num)]
        exact (cellAlive_in mem p (X + 1) Y (i + 1) 0 (a + 176) (by omega) (by norm_num)
          hi29 hY8 (by omega)).symm
      · rw [if_neg hi29, cellAlive_out mem p (X + 1) Y (by omega)]
        simp [cellField]
    · rw [if_neg h7, cellField_cellMask _ (n + 1) (by omega)]
      exact (cellAlive_in mem p (X + 1) Y i (n + 1) a (by omega) (by omega) hi hY8 ha).symm

theorem rowAround_fields (mem : Nat → Nat) (i a : Nat) :
    FieldsLe (rowAround mem i a) 3 ∧ ∀ n, n < 8 → cellField (rowAround mem i a) n =
      cellField (fromLeft (cellMask (mem a)) (leftWord mem i a)) n +
        cellField (cellMask (mem a)) n +
        cellField (fromRight (cellMask (mem a)) (rightWord mem i a)) n := by
  have hL := fromLeft_fieldsLe _ _ (cellMask_fieldsLe (mem a)) (leftWord_fieldsLe mem i a)
  have hC := cellMask_fieldsLe (mem a)
  have hR := fromRight_fieldsLe _ _ (cellMask_fieldsLe (mem a)) (rightWord_fieldsLe mem i a)
  obtain ⟨h1, h1f⟩ := fieldsLe_add _ _ 1 1 hL hC (by norm_num)
  obtain ⟨h2, h2f⟩ := fieldsLe_add _ _ 2 1 h1 hR (by norm_num)
  refine ⟨h2, ?_⟩
  intro n hn
  unfold rowAround
  rw [h2f n hn, h1f n hn]

theorem rowSides_fields (mem : Nat → Nat) (i a : Nat) :
    FieldsLe (rowSides mem i a) 2 ∧ ∀ n, n < 8 → cellField (rowSides mem i a) n =
      cellField (fromLeft (cellMask (mem a)) (leftWord mem i a)) n +
        cellField (fromRight (cellMask (mem a)) (rightWord mem i a)) n := by
  have hL := fromLeft_fieldsLe _ _ (cellMask_fieldsLe (mem a)) (leftWord_fieldsLe mem i a)
  have hR := fromRight_fieldsLe _ _ (cellMask_fieldsLe (mem a)) (rightWord_fieldsLe mem i a)
  exact fieldsLe_add _ _ 1 1 hL hR (by norm_num)

theorem neighbourSums_fields (mem : Nat → Nat) (p i y : Nat) :
    FieldsLe (neighbourSums mem p i y) 8 ∧ ∀ n, n < 8 →
      cellField (neighbourSums mem p i y) n =
        cellField (rowAround mem i (p + 176 * i + y - 1)) n +
          cellField (rowSides mem i (p + 176 * i + y)) n +
          cellField (rowAround mem i (p + 176 * i + y + 1)) n := by
  obtain ⟨hu, _⟩ := rowAround_fields mem i (p + 176 * i + y - 1)
  obtain ⟨hc, _⟩ := rowSides_fields mem i (p + 176 * i + y)
  obtain ⟨hd, _⟩ := rowAround_fields mem i (p + 176 * i + y + 1)
  obtain ⟨h1, h1f⟩ := fieldsLe_add _ _ 3 2 hu hc (by norm_num)
  obtain ⟨h2, h2f⟩ := fieldsLe_add _ _ 5 3 h1 hd (by norm_num)
  have hmod : neighbourSums mem p i y =
      rowAround mem i (p + 176 * i + y - 1) + rowSides mem i (p + 176 * i + y) +
        rowAround mem i (p + 176 * i + y + 1) := by
    unfold neighbourSums
    exact Nat.mod_eq_of_lt h2.1
  rw [hmod]
  refine ⟨h2, ?_⟩
  intro n hn
  rw [h2f n hn, h1f n hn]

theorem cellField_nextWord (mem : Nat → Nat) (p i y n k : Nat) (X : Int) (hp : 8 ≤ p)
    (hi : i < 30) (hy : y < 160) (hn : n < 8) (hX : X = 8 * (i : Int) + n)
    (hk : k =
      (cellAlive mem p (X - 1) ((y : Int) - 1)).toNat + (cellAlive mem p X ((y : Int) - 1)).toNat +
      (cellAlive mem p (X + 1) ((y : Int) - 1)).toNat + (cellAlive mem p (X - 1) y).toNat +
      (cellAlive mem p (X + 1) y).toNat + (cellAlive mem p (X - 1) ((y : Int) + 1)).toNat +
      (cellAlive mem p X ((y : Int) + 1)).toNat +
      (cellAlive mem p (X + 1) ((y : Int) + 1)).toNat) :
    cellField (nextWord mem p i y) n =
      if k = 3 ∨ (k = 2 ∧ (cellAlive mem p X y).toNat = 1) then 1 else 0 := by
  obtain ⟨hs8, hsf⟩ := neighbourSums_fields mem p i y
  obtain ⟨_, huf⟩ := rowAround_fields mem i (p + 176 * i + y - 1)
  obtain ⟨_, hcf⟩ := rowSides_fields mem i (p + 176 * i + y)
  obtain ⟨_, hdf⟩ := rowAround_fields mem i (p + 176 * i + y + 1)
  obtain ⟨u1, u2, u3⟩ := row_fields mem p i n (p + 176 * i + y - 1) X ((y : Int) - 1) hp hi hn hX
    ⟨by omega, by omega⟩ (by omega)
  obtain ⟨c1, c2, c3⟩ := row_fields mem p i n (p + 176 * i + y) X (y : Int) hp hi hn hX
    ⟨by omega, by omega⟩ (by omega)
  obtain ⟨d1, d2, d3⟩ := row_fields mem p i n (p + 176 * i + y + 1) X ((y : Int) + 1) hp hi hn hX
    ⟨by omega, by omega⟩ (by omega)
  have hsum : cellField (neighbourSums mem p i y) n = k := by
    rw [hsf n hn, huf n hn, hcf n hn, hdf n hn, u1, u2, u3, c1, c3, d1, d2, d3, hk]
    omega
  have hcur : (cellAlive mem p X y).toNat ≤ 1 := by
    cases cellAlive mem p X y <;> simp
  unfold nextWord
  exact cellField_lifeSelect _ _ n k _ hn hsum (by rw [← hsum]; exact hs8.2 n hn) c2 hcur

theorem rowAround_congr (m1 m2 : Nat → Nat) (i a lo hi : Nat)
    (h : ∀ b, lo ≤ b → b ≤ hi → m1 b = m2 b) (h1 : lo ≤ a) (h2 : a ≤ hi)
    (h3 : 0 < i → lo + 176 ≤ a) (h4 : i + 1 < 30 → a + 176 ≤ hi) :
    rowAround m1 i a = rowAround m2 i a ∧ rowSides m1 i a = rowSides m2 i a := by
  have hc : m1 a = m2 a := h a h1 h2
  have hl : leftWord m1 i a = leftWord m2 i a := by
    unfold leftWord
    by_cases hi0 : 0 < i
    · rw [if_pos hi0, if_pos hi0, h (a - 176) (by have := h3 hi0; omega) (by omega)]
    · rw [if_neg hi0, if_neg hi0]
  have hr : rightWord m1 i a = rightWord m2 i a := by
    unfold rightWord
    by_cases hi29 : i + 1 < 30
    · rw [if_pos hi29, if_pos hi29, h (a + 176) (by omega) (h4 hi29)]
    · rw [if_neg hi29, if_neg hi29]
  unfold rowAround rowSides
  rw [hc, hl, hr]
  exact ⟨rfl, rfl⟩

theorem nextWord_congr (m1 m2 : Nat → Nat) (p i y : Nat) (hp : 8 ≤ p) (hi : i < 30)
    (hy : y < 160) (h : ∀ b, p - 1 ≤ b → b ≤ p + 5264 → m1 b = m2 b) :
    nextWord m1 p i y = nextWord m2 p i y := by
  obtain ⟨hu, _⟩ := rowAround_congr m1 m2 i (p + 176 * i + y - 1) (p - 1) (p + 5264) h
    (by omega) (by omega) (by omega) (by omega)
  obtain ⟨_, hc⟩ := rowAround_congr m1 m2 i (p + 176 * i + y) (p - 1) (p + 5264) h
    (by omega) (by omega) (by omega) (by omega)
  obtain ⟨hd, _⟩ := rowAround_congr m1 m2 i (p + 176 * i + y + 1) (p - 1) (p + 5264) h
    (by omega) (by omega) (by omega) (by omega)
  unfold nextWord neighbourSums
  rw [hu, hc, hd, h (p + 176 * i + y) (by omega) (by omega)]

theorem advance_column (mem : Nat → Nat) (src dest i : Nat) (hsrc : 8 ≤ src)
    (hbuf : src + 5280 ≤ dest ∨ dest + 5280 ≤ src) (hi : i < 30) (n : Nat) (hn : n ≤ 160)
    (cur : Nat → Nat) (hcur : ∀ b, src - 1 ≤ b → b ≤ src + 5264 → cur b = mem b) :
    forLoop n (fun y m => writeMem m (dest + 176 * i + y) (nextWord m src i y)) cur =
        applyStores cur ((List.range n).map (fun y =>
          (dest + 176 * i + y, nextWord mem src i y))) ∧
      ∀ b, src - 1 ≤ b → b ≤ src + 5264 →
        forLoop n (fun y m => writeMem m (dest + 176 * i + y) (nextWord m src i y)) cur b =
          mem b := by
  induction n with
  | zero => exact ⟨rfl, hcur⟩
  | succ n ih =>
    obtain ⟨ih1, ih2⟩ := ih (by omega)
    rw [forLoop_succ]
    have hw := nextWord_congr _ mem src i n hsrc hi (by omega) ih2
    constructor
    · rw [hw, ih1, List.range_succ, List.map_append, applyStores_append]
      rfl
    · intro b hb1 hb2
      unfold writeMem
      rw [if_neg (by omega)]
      exact ih2 b hb1 hb2

theorem advance_columns (mem : Nat → Nat) (src dest : Nat) (hsrc : 8 ≤ src)
    (hbuf : src + 5280 ≤ dest ∨ dest + 5280 ≤ src) (k : Nat) (hk : k ≤ 30) :
    forLoop k (fun i mem =>
        forLoop 160 (fun y mem =>
          writeMem mem (dest + 176 * i + y) (nextWord mem src i y)) mem) mem =
        applyStores mem (gridStores dest (fun i y => nextWord mem src i y) k) ∧
      ∀ b, src - 1 ≤ b → b ≤ src + 5264 →
        forLoop k (fun i mem =>
          forLoop 160 (fun y mem =>
            writeMem mem (dest + 176 * i + y) (nextWord mem src i y)) mem) mem b = mem b := by
  induction k with
  | zero => exact ⟨rfl, fun _ _ _ => rfl⟩
  | succ k ih =>
    obtain ⟨ih1, ih2⟩ := ih (by omega)
    obtain ⟨h1, h2⟩ := advance_column mem src dest k hsrc hbuf (by omega) 160 (le_refl _) _ ih2
    rw [forLoop_succ]
    constructor
    · rw [h1, ih1, gridStores_succ, applyStores_append]
    · exact h2

theorem conwaySimulationAdvance_eq (mem : Nat → Nat) (src dest : Nat) (hsrc : 8 ≤ src)
    (hbuf : src + 5280 ≤ dest ∨ dest + 5280 ≤ src) :
    conwaySimulationAdvance mem src dest =
      applyStores mem (gridStores dest (fun i y => nextWord mem src i y) 30) :=
  (advance_columns mem src dest hsrc hbuf 30 (le_refl _)).1

/-- C1: for every source buffer and every interior cell `(x, y)` (`x < 240`, `y < 160`), after
`conwaySimulationAdvance(src, dest)` on two buffers that are different storage, the cell is
alive in `dest` exactly when it was alive in `src` with exactly 2 or 3 live cells among its
eight neighbours `(x±1, y±1)`, `(x, y±1)`, `(x±1, y)` in `src`, or dead in `src` with exactly
3; `k` is that number of live neighbours. -/
theorem conwaySimulationAdvance_life_rule (mem : Nat → Nat) (src dest x y k : Nat)
    (hsrc : 8 ≤ src) (hbuf : src + 5280 ≤ dest ∨ dest + 5280 ≤ src)
    (hx : x < 240) (hy : y < 160)
    (hk : k =
      (cellAlive mem src ((x : Int) - 1) ((y : Int) - 1)).toNat +
      (cellAlive mem src x ((y : Int) - 1)).toNat +
      (cellAlive mem src ((x : Int) + 1) ((y : Int) - 1)).toNat +
      (cellAlive mem src ((x : Int) - 1) y).toNat +
      (cellAlive mem src ((x : Int) + 1) y).toNat +
      (cellAlive mem src ((x : Int) - 1) ((y : Int) + 1)).toNat +
      (cellAlive mem src x ((y : Int) + 1)).toNat +
      (cellAlive mem src ((x : Int) + 1) ((y : Int) + 1)).toNat) :
    cellAlive (conwaySimulationAdvance mem src dest) dest x y = true ↔
      (cellAlive mem src x y = true ∧ (k = 2 ∨ k = 3)) ∨
      (cellAlive mem src x y = false ∧ k = 3) := by
  have hX : (x : Int) = 8 * ((x / 8 : Nat) : Int) + ((x % 8 : Nat) : Int) := by omega
  have hfield := cellField_nextWord mem src (x / 8) y (x % 8) k (x : Int) hsrc (by omega) hy
    (by omega) hX hk
  have hres := cellAlive_in (conwaySimulationAdvance mem src dest) dest (x : Int) (y : Int)
    (x / 8) (x % 8) (dest + 176 * (x / 8) + y) hX (by omega) (by omega)
    ⟨by omega, by omega⟩ (by push_cast; ring)
  rw [conwaySimulationAdvance_eq mem src dest hsrc hbuf,
    applyStores_gridStores_at _ _ _ _ _ _ (by omega) hy, hfield] at hres
  have hb : ∀ b : Bool, b = true ↔ b.toNat = 1 := by
    intro b
    cases b <;> simp
  rw [hb, conwaySimulationAdvance_eq mem src dest hsrc hbuf, hres]
  cases hA : cellAlive mem src x y
  · simp only [Bool.toNat_false]
    by_cases h3 : k = 3
    · simp [h3]
    · simp [h3]
  · simp only [Bool.toNat_true]
    by_cases h3 : k = 3
    · simp [h3]
    · by_cases h2 : k = 2
      · simp [h2]
      · simp [h2, h3]

/-- Witness for `conwaySimulationAdvance_life_rule`: one step of a horizontal blinker from the
buffer of character block 0 (word 8) into that of block 2 (word 8200): cell (3,3) is born with
three live neighbours, cell (3,4) survives with two, cell (2,4) dies with one. -/
theorem conwaySimulationAdvance_life_rule_witness :
    (8 ≤ 8 ∧ (8 + 5280 ≤ 8200 ∨ 8200 + 5280 ≤ 8)) ∧
    cellAlive (conwaySimulationAdvance blinkerMem 8 8200) 8200 (3 : Nat) (3 : Nat) = true ∧
    cellAlive (conwaySimulationAdvance blinkerMem 8 8200) 8200 (3 : Nat) (4 : Nat) = true ∧
    ¬ cellAlive (conwaySimulationAdvance blinkerMem 8 8200) 8200 (2 : Nat) (4 : Nat) = true :=
  ⟨⟨by decide, by decide⟩,
    (conwaySimulationAdvance_life_rule blinkerMem 8 8200 3 3 3 (by decide) (by decide)
      (by decide) (by decide) (by decide)).mpr (by decide),
    (conwaySimulationAdvance_life_rule blinkerMem 8 8200 3 4 2 (by decide) (by decide)
      (by decide) (by decide) (by decide)).mpr (by decide),
    fun h => absurd ((conwaySimulationAdvance_life_rule blinkerMem 8 8200 2 4 1 (by decide)
      (by decide) (by decide) (by decide) (by decide)).mp h) (by decide)⟩

/-- Both argument pairs that `updateScene` passes (tile 1 of character blocks 0 and 2, in either
order) meet the kernel contract used by `conwaySimulationAdvance_life_rule`: the source pointer
has its border tile before it and the two 660-tile buffers do not overlap. -/
theorem updateScene_buffers_disjoint :
    (8 ≤ tileWord 0 1 0 ∧
      (tileWord 0 1 0 + 5280 ≤ tileWord 2 1 0 ∨ tileWord 2 1 0 + 5280 ≤ tileWord 0 1 0)) ∧
    (8 ≤ tileWord 2 1 0 ∧
      (tileWord 2 1 0 + 5280 ≤ tileWord 0 1 0 ∨ tileWord 0 1 0 + 5280 ≤ tileWord 2 1 0)) := by
  decide

/-- The contract that source and destination are different storage is needed: run in place on
the blinker buffer (`src = dest`), the kernel leaves cell (2,4) alive, although it has a single
live neighbour in the source and dies in a run into a separate buffer. -/
theorem conwaySimulationAdvance_in_place_differs :
    cellAlive (conwaySimulationAdvance blinkerMem 8 8) 8 (2 : Nat) (4 : Nat) = true := by
  decide!

end GbaConway
